import Mathlib

/-!
Verification development for the kaval experiment runner (src/expcore.py,
src/runners.py).  The Python code is shallowly embedded: immutable Python
values (ints, strings, bools, and lists, which this code base never mutates
in place) become inductive values, while the mutable containers that the
code does mutate in place (the per-option `{"type":…, "value":…}` dicts of a
configuration record, the `partitions` dict of a `FileInputGraph`, and the
top-level configuration dicts) live in explicit heaps addressed by `Nat`, so
that the sharing created by `copy.copy` / `dict.copy` versus the fresh
structure created by `copy.deepcopy` is represented faithfully.
Fallible paths (`sys.exit`, raised exceptions) are represented by `Option` /
`Except` results.
-/

/-- A Python scalar as used by the experiment configurations: `int`, `str`
or `bool`. -/
inductive Scalar where
  | int (n : Int)
  | str (s : String)
  | bool (b : Bool)
deriving DecidableEq, Repr

/-- An immutable view of a Python value: a scalar or a (possibly nested)
list.  Lists are modelled as immutable because no code path in expcore.py or
runners.py ever mutates a list in place (dicts are the only containers
mutated in place; those are modelled by heaps below). -/
inductive PyVal where
  | scalar (s : Scalar)
  | list (xs : List PyVal)

mutual
/-- Boolean equality on `PyVal` (the nested inductive prevents deriving). -/
def PyVal.beq : PyVal → PyVal → Bool
  | .scalar a, .scalar b => decide (a = b)
  | .list xs, .list ys => PyVal.beqList xs ys
  | _, _ => false

/-- Boolean equality on lists of `PyVal`. -/
def PyVal.beqList : List PyVal → List PyVal → Bool
  | [], [] => true
  | x :: xs, y :: ys => PyVal.beq x y && PyVal.beqList xs ys
  | _, _ => false
end

mutual
theorem PyVal.beq_eq : ∀ (a b : PyVal), PyVal.beq a b = true ↔ a = b
  | .scalar x, .scalar y => by simp [PyVal.beq]
  | .scalar _, .list _ => by simp [PyVal.beq]
  | .list _, .scalar _ => by simp [PyVal.beq]
  | .list xs, .list ys => by simp [PyVal.beq, PyVal.beqList_eq xs ys]

theorem PyVal.beqList_eq : ∀ (xs ys : List PyVal), PyVal.beqList xs ys = true ↔ xs = ys
  | [], [] => by simp [PyVal.beqList]
  | [], _ :: _ => by simp [PyVal.beqList]
  | _ :: _, [] => by simp [PyVal.beqList]
  | x :: xs, y :: ys => by
      simp [PyVal.beqList, PyVal.beq_eq x y, PyVal.beqList_eq xs ys]
end

instance : DecidableEq PyVal :=
  fun a b => decidable_of_iff (PyVal.beq a b = true) (PyVal.beq_eq a b)

/-- Python `str()` of a scalar (`f"{val}"`): `True` / `False` for bools,
decimal for ints, the string itself for strings. -/
def Scalar.pyStr : Scalar → String
  | .int n => toString n
  | .str s => s
  | .bool b => if b then "True" else "False"

/-- Python `repr()` of a scalar, as used for elements of a stringified list
(string escaping corner cases are out of scope: no configuration value in
the claims contains quotes). -/
def Scalar.pyRepr : Scalar → String
  | .int n => toString n
  | .str s => "'" ++ s ++ "'"
  | .bool b => if b then "True" else "False"

mutual
/-- Python `str()` of a value: scalars print with `str`, lists print as
`[a, b]` with `repr` applied to the elements. -/
def PyVal.pyStr : PyVal → String
  | .scalar s => s.pyStr
  | .list xs => "[" ++ String.intercalate ", " (PyVal.pyReprList xs) ++ "]"

/-- Python `repr()` of each element of a list. -/
def PyVal.pyReprList : List PyVal → List String
  | [] => []
  | x :: xs => PyVal.pyRepr x :: PyVal.pyReprList xs

/-- Python `repr()` of a value. -/
def PyVal.pyRepr : PyVal → String
  | .scalar s => s.pyRepr
  | .list xs => "[" ++ String.intercalate ", " (PyVal.pyReprList xs) ++ "]"
end

/-- Python truthiness of a value (`if arg_value:`): `False`, `0`, `""` and
`[]` are falsy, everything else is truthy. -/
def PyVal.truthy : PyVal → Bool
  | .scalar (.int n) => n ≠ 0
  | .scalar (.str s) => s ≠ ""
  | .scalar (.bool b) => b
  | .list xs => ¬ xs.isEmpty

/-- `isinstance(v, bool)`. -/
def PyVal.isBool : PyVal → Bool
  | .scalar (.bool _) => true
  | _ => false

/-- `isinstance(v, list)`. -/
def PyVal.isList : PyVal → Bool
  | .list _ => true
  | _ => false

/-- expcore.py `CLIArgumentType`.  The Python enum declares four member
names, but `FLAG_LIST = "positional_list"` repeats the value of
`POSITIONAL_LIST = "positional_list"`, so in Python `FLAG_LIST` is an
*alias* of `POSITIONAL_LIST`: the enum has only three distinct members, and
`CLIArgumentType.FLAG_LIST is CLIArgumentType.POSITIONAL_LIST` holds.  The
inductive below has the three distinct members; the alias is the definition
`CLIArgumentType.FLAG_LIST` further down. -/
inductive CLIArgumentType where
  | FLAG
  | POSITIONAL
  | POSITIONAL_LIST
deriving DecidableEq, Repr

/-- The alias member: in the source enum, `FLAG_LIST` carries the same value
string `"positional_list"` as `POSITIONAL_LIST` and is therefore the same
member. -/
def CLIArgumentType.FLAG_LIST : CLIArgumentType := CLIArgumentType.POSITIONAL_LIST

/-- expcore.py `get_argument_type_from_str`.  `none` models the
`sys.exit(1)` taken for an undefined argument type. -/
def get_argument_type_from_str (arg_type : String) : Option CLIArgumentType :=
  if arg_type = "flag" then some CLIArgumentType.FLAG
  else if arg_type = "positional" then some CLIArgumentType.POSITIONAL
  else if arg_type = "positional_list" then some CLIArgumentType.POSITIONAL_LIST
  else if arg_type = "flag_list" then some CLIArgumentType.FLAG_LIST
  else none

/-- expcore.py `is_argument_flag_only`: a FLAG whose value is a bool. -/
def is_argument_flag_only (arg_type : CLIArgumentType) (arg_value : PyVal) : Bool :=
  arg_type = CLIArgumentType.FLAG && arg_value.isBool

/-- expcore.py `is_argument_positional`:
`arg_type in [POSITIONAL, POSITIONAL_LIST]`.  Because `FLAG_LIST` is an
alias of `POSITIONAL_LIST`, this also returns `true` for `FLAG_LIST`. -/
def is_argument_positional (arg_type : CLIArgumentType) : Bool :=
  arg_type = CLIArgumentType.POSITIONAL || arg_type = CLIArgumentType.POSITIONAL_LIST

/-- expcore.py `is_list_of_list`: a list all of whose elements are lists
(vacuously true for the empty list). -/
def is_list_of_list : PyVal → Bool
  | .list xs => xs.all PyVal.isList
  | _ => false

/-- expcore.py `is_argument_explosive`: a `*_list`-kind argument with a
list-of-lists value, or a flag/positional argument with a list value. -/
def is_argument_explosive (arg_type : CLIArgumentType) (arg_val : PyVal) : Bool :=
  if (arg_type = CLIArgumentType.FLAG_LIST || arg_type = CLIArgumentType.POSITIONAL_LIST)
      && is_list_of_list arg_val then
    true
  else if (arg_type = CLIArgumentType.FLAG || arg_type = CLIArgumentType.POSITIONAL)
      && arg_val.isList then
    true
  else
    false

/-- A value of a parameter bag entry as consumed by `for_each_argument`:
either a raw value (default type FLAG) or a `{"type": t, "value": v}`
wrapper dict.  These wrapper dicts are not mutated by the rendering code, so
they are modelled by value here (the explosion engine, which does mutate
them, uses the heap-based model below instead). -/
inductive ParamVal where
  | raw (v : PyVal)
  | typed (ty : String) (v : PyVal)
deriving DecidableEq

/-- A parameter bag: an insertion-ordered string-keyed dict. -/
abbrev Params := List (String × ParamVal)

/-- The `(argument_type, value)` pair that expcore.py `for_each_argument`
passes to its handler for one entry; `none` models the `sys.exit(1)` of
`get_argument_type_from_str` on an undefined type string. -/
def for_each_argument_view : ParamVal → Option (CLIArgumentType × PyVal)
  | .raw v => some (CLIArgumentType.FLAG, v)
  | .typed ty v => (get_argument_type_from_str ty).map (fun t => (t, v))

/-- The flag token of expcore.py `params_to_args`: `-k` for a single
character key, `--key` otherwise. -/
def flagToken (key : String) : String :=
  (if key.length > 1 then "--" else "-") ++ key

/-- One quoted value token: `f'"{val}"'`. -/
def quotedToken (v : PyVal) : String :=
  "\"" ++ v.pyStr ++ "\""

/-- The string built for one argument by the `parse_argument` closure inside
expcore.py `params_to_args` (empty string means nothing is appended). -/
def renderArgument (arg_type : CLIArgumentType) (arg_key : String) (arg_value : PyVal) :
    String :=
  let arg :=
    if ¬ is_argument_positional arg_type
        ∧ (¬ is_argument_flag_only arg_type arg_value ∨ arg_value.truthy) then
      flagToken arg_key
    else ""
  if ¬ is_argument_flag_only arg_type arg_value then
    let vals := match arg_value with
      | .list xs => xs
      | v => [v]
    arg ++ " " ++ String.intercalate " " (vals.map quotedToken)
  else arg

/-- expcore.py `params_to_args`: renders every entry of a parameter bag and
keeps the non-empty strings.  `none` models the `sys.exit(1)` on an
undefined type string. -/
def params_to_args : Params → Option (List String)
  | [] => some []
  | (key, pv) :: rest => do
      let (t, v) ← for_each_argument_view pv
      let arg := renderArgument t key v
      let tail ← params_to_args rest
      if arg = "" then pure tail else pure (arg :: tail)

/-!
## The configuration explosion engine (expcore.py `explode`)

A configuration record maps option keys to either raw immutable values or
references to mutable `{"type": …, "value": …}` wrapper dicts living in a
heap.  `explode` mutates those wrapper dicts in place (`exploded[flag]
["value"] = arg` after a *shallow* `config.copy()`), so the heap is threaded
through the whole recursion; `copy.deepcopy` allocates fresh dicts
(sharing-preserving via a memo, as Python's deepcopy is).
-/

/-- One `{"type": ty, "value": value}` wrapper dict (a mutable Python dict;
`explode` reassigns its `value` slot in place). -/
structure ArgDict where
  ty : String
  value : PyVal
deriving DecidableEq

/-- The heap of wrapper dicts; an address is an index, allocation appends. -/
abbrev Heap := List ArgDict

/-- A configuration-record entry: a raw immutable value, or a reference to a
wrapper dict in the heap. -/
inductive EntryVal where
  | raw (v : PyVal)
  | ref (a : Nat)
deriving DecidableEq

/-- A configuration record: an insertion-ordered string-keyed dict. -/
abbrev Config := List (String × EntryVal)

/-- The pivot selected by the `for flag, value in config.items()` loop of
`explode`: the first explosive option, either a wrapper dict whose parsed
type is explosive for its value, or a raw list value. -/
inductive Pivot where
  | dict (flag : String) (a : Nat) (args : List PyVal)
  | rawList (flag : String) (args : List PyVal)
deriving DecidableEq

/-- The scan of `explode`'s loop up to its `break`: returns the first
explosive option (`some (some _)`), `some none` when the loop falls through
without finding one, and `none` for the `sys.exit(1)` taken when a wrapper
dict carries an undefined type string (scanning performs no side effects, so
factoring it out of the loop is behavior-preserving). -/
def findPivot (σ : Heap) : Config → Option (Option Pivot)
  | [] => some none
  | (flag, .ref a) :: rest =>
      match σ.get? a with
      | none => none
      | some d =>
          match get_argument_type_from_str d.ty with
          | none => none
          | some t =>
              if is_argument_explosive t d.value then
                match d.value with
                | .list args => some (some (.dict flag a args))
                | _ => none
              else findPivot σ rest
  | (flag, .raw v) :: rest =>
      match v with
      | .list args => some (some (.rawList flag args))
      | _ => findPivot σ rest

/-- `copy.deepcopy` of a configuration record: every referenced wrapper dict
is copied to a fresh address, preserving internal sharing through the memo
exactly as Python's `deepcopy` does; raw values are immutable in this model,
so copying them is the identity. -/
def deepcopyGo (σ : Heap) (memo : List (Nat × Nat)) :
    Config → Heap × List (Nat × Nat) × Config
  | [] => (σ, memo, [])
  | (k, .raw v) :: rest =>
      let (σ', m', r') := deepcopyGo σ memo rest
      (σ', m', (k, .raw v) :: r')
  | (k, .ref a) :: rest =>
      match memo.find? (fun p => p.1 = a) with
      | some p =>
          let (σ', m', r') := deepcopyGo σ memo rest
          (σ', m', (k, .ref p.2) :: r')
      | none =>
          match σ.get? a with
          | some d =>
              let na := σ.length
              let (σ', m', r') := deepcopyGo (σ ++ [d]) ((a, na) :: memo) rest
              (σ', m', (k, .ref na) :: r')
          | none =>
              let (σ', m', r') := deepcopyGo σ memo rest
              (σ', m', (k, .ref a) :: r')

/-- `copy.deepcopy(config)` (top-level call with an empty memo). -/
def deepcopyConfig (σ : Heap) (cfg : Config) : Heap × Config :=
  let (σ', _, c') := deepcopyGo σ [] cfg
  (σ', c')

/-- `exploded[flag]["value"] = arg`: the in-place mutation of the wrapper
dict bound to `flag`.  `none` covers the unreachable shapes (binding absent
or not a wrapper dict — `explode` only performs this assignment on the
explosive wrapper-dict pivot it just found). -/
def setDictValue (σ : Heap) (cfg : Config) (flag : String) (arg : PyVal) : Option Heap :=
  match cfg.find? (fun e => e.1 = flag) with
  | some (_, .ref a) =>
      match σ.get? a with
      | some d => some (σ.set a ⟨d.ty, arg⟩)
      | none => none
  | _ => none

/-- `exploded = config.copy(); exploded[flag] = arg` for a raw list pivot:
rebinding a key of the fresh shallow copy, which mutates no shared
structure; the key is present, so the binding is replaced in place. -/
def configSetRaw : Config → String → PyVal → Config
  | [], _, _ => []
  | (k, v) :: rest, flag, arg =>
      if k = flag then (k, .raw arg) :: rest
      else (k, v) :: configSetRaw rest flag arg

/-- The `for arg in argument_value` loop of `explode` for a wrapper-dict
pivot.  A list element takes the `copy.deepcopy` branch (fresh dicts); any
other element takes the `config.copy()` branch, whose *shallow* copy shares
every wrapper dict with the original record, so the assignment mutates the
dict that the original record — and every variant produced by the other
iterations — still references. -/
def foldExplodeDict (recur : Heap → Config → Option (Heap × List Config))
    (cfg : Config) (flag : String) :
    Heap → List PyVal → Option (Heap × List Config)
  | σ, [] => some (σ, [])
  | σ, arg :: rest =>
      match arg with
      | .list _ => do
          let (σ1, exploded) := deepcopyConfig σ cfg
          let σ2 ← setDictValue σ1 exploded flag arg
          let (σ3, out) ← recur σ2 exploded
          let (σ4, outs) ← foldExplodeDict recur cfg flag σ3 rest
          pure (σ4, out ++ outs)
      | _ => do
          let σ1 ← setDictValue σ cfg flag arg
          let (σ2, out) ← recur σ1 cfg
          let (σ3, outs) ← foldExplodeDict recur cfg flag σ2 rest
          pure (σ3, out ++ outs)

/-- The `for arg in value` loop of `explode` for a raw list pivot: each
iteration rebinds the key in a fresh shallow copy (no shared structure is
mutated). -/
def foldExplodeRaw (recur : Heap → Config → Option (Heap × List Config))
    (cfg : Config) (flag : String) :
    Heap → List PyVal → Option (Heap × List Config)
  | σ, [] => some (σ, [])
  | σ, arg :: rest => do
      let (σ1, out) ← recur σ (configSetRaw cfg flag arg)
      let (σ2, outs) ← foldExplodeRaw recur cfg flag σ1 rest
      pure (σ2, out ++ outs)

/-- expcore.py `explode`, fuel-indexed.  `none` covers both the `sys.exit`
path (undefined argument type) and fuel exhaustion; the canonical wrapper
`explode` below supplies fuel exceeding the recursion depth, and every
`some` result is a faithful run of the Python function. -/
def explodeFuel : Nat → Heap → Config → Option (Heap × List Config)
  | 0, _, _ => none
  | n + 1, σ, cfg => do
      let piv ← findPivot σ cfg
      match piv with
      | none => some (σ, [cfg])
      | some (.dict flag _ args) => do
          let (σ', configs) ← foldExplodeDict (explodeFuel n) cfg flag σ args
          if configs.isEmpty then pure (σ', [cfg]) else pure (σ', configs)
      | some (.rawList flag args) => do
          let (σ', configs) ← foldExplodeRaw (explodeFuel n) cfg flag σ args
          if configs.isEmpty then pure (σ', [cfg]) else pure (σ', configs)

mutual
/-- Nesting depth of a value (scalar: 0, list: 1 + max over elements). -/
def PyVal.depth : PyVal → Nat
  | .scalar _ => 0
  | .list xs => 1 + PyVal.depthList xs

/-- Maximum nesting depth over a list of values. -/
def PyVal.depthList : List PyVal → Nat
  | [] => 0
  | x :: xs => max (PyVal.depth x) (PyVal.depthList xs)
end

/-- Nesting depth of an entry's resolved value. -/
def entryWeight (σ : Heap) : EntryVal → Nat
  | .raw v => v.depth
  | .ref a =>
      match σ.get? a with
      | some d => d.value.depth
      | none => 0

/-- Total nesting depth of a record's resolved values; an upper bound for
the recursion depth of `explode` (every recursive call replaces one list
value by one of its elements, and in-place dict mutation only ever does the
same, so this sum strictly decreases down the recursion). -/
def configWeight (σ : Heap) (cfg : Config) : Nat :=
  (cfg.map (fun e => entryWeight σ e.2)).sum

/-- expcore.py `explode`: the canonical run with sufficient fuel. -/
def explode (σ : Heap) (cfg : Config) : Option (Heap × List Config) :=
  explodeFuel (configWeight σ cfg + 1) σ cfg

/-- A record entry as observed through the heap. -/
inductive Resolved where
  | raw (v : PyVal)
  | dict (ty : String) (v : PyVal)
  | dangling
deriving DecidableEq

/-- Resolve one entry through the heap. -/
def resolveEntry (σ : Heap) : EntryVal → Resolved
  | .raw v => .raw v
  | .ref a =>
      match σ.get? a with
      | some d => .dict d.ty d.value
      | none => .dangling

/-- The observable content of a configuration record: every entry resolved
through the heap. -/
def resolveConfig (σ : Heap) (cfg : Config) : List (String × Resolved) :=
  cfg.map (fun e => (e.1, resolveEntry σ e.2))

/-!
## Input descriptors: KaGen graphs (expcore.py `KaGenGraph`)
-/

/-- Python `int()` of a scalar where it succeeds without parsing: ints are
themselves, bools are 0/1 (`bool` subclasses `int`).  String parsing and the
errors of `int()` on other values are outside the modelled fragment (no
claim exercises them); they map to `none` like the caught `TypeError`. -/
def scalarToIntOpt : Scalar → Option Int
  | .int n => some n
  | .bool b => some (if b then 1 else 0)
  | .str _ => none

/-- `f"{x}"` for an optional int; Python prints the value or `None`. -/
def optIntStr : Option Int → String
  | some v => toString v
  | none => "None"

/-- Python truthiness of an optional int (`if self.n:`): `None` and `0` are
falsy. -/
def optIntTruthy : Option Int → Bool
  | some v => v ≠ 0
  | none => false

/-- Assignment `d[k] = v` on a string-keyed scalar dict: an existing key is
overwritten in place, a new key is appended. -/
def dictSetScalar : List (String × Scalar) → String → Scalar → List (String × Scalar)
  | [], k, v => [(k, v)]
  | (k', v') :: rest, k, v =>
      if k' = k then (k, v) :: rest else (k', v') :: dictSetScalar rest k v

/-- `d.pop(k, None)`: remove a key if present. -/
def dictPopScalar : List (String × Scalar) → String → List (String × Scalar)
  | [], _ => []
  | (k', v') :: rest, k =>
      if k' = k then rest else (k', v') :: dictPopScalar rest k

/-- `filename.rsplit(".", 1)` followed by unpacking into two names: splits
at the last dot; `none` models the `ValueError` of unpacking a dotless
name. -/
def rsplitDot (s : String) : Option (String × String) :=
  let parts := s.splitOn "."
  match parts.getLast? with
  | none => none
  | some last =>
      if parts.length ≥ 2 then some (String.intercalate "." parts.dropLast, last)
      else none

/-- expcore.py `stringify_params`: bools contribute the bare key, everything
else `key=value`. -/
def stringify_params (params : List (String × Scalar)) : List String :=
  params.map (fun kv =>
    match kv.2 with
    | .bool _ => kv.1
    | v => kv.1 ++ "=" ++ v.pyStr)

/-- expcore.py `KaGenGraph` after `__init__`: resolved vertex/edge counts,
the weak-scaling flag, and the remaining keyword parameters (still
containing `type`, which `__init__` reads but does not pop). -/
structure KaGenGraph where
  n : Option Int
  m : Option Int
  scale_weak : Bool
  params : List (String × Scalar)
deriving DecidableEq

/-- `KaGenGraph.__init__(**kwargs)`.  `self.n = kwargs.get("n", 1 <<
int(kwargs["N"]))` evaluates the default eagerly, so a missing or
non-convertible `N` lands in the `except (TypeError, KeyError)` branch and
sets `n = None` even when `n` itself was passed; same for `m`/`M`.
`scale_weak` is `kwargs.get("scale_weak", False)` used for its truthiness.
A negative `N`/`M` would raise in Python (negative shift); the claims only
use non-negative exponents. -/
def KaGenGraph.ofKwargs (kwargs : List (String × Scalar)) : KaGenGraph :=
  let nDefault := ((kwargs.lookup "N").bind scalarToIntOpt).map (fun i => (2 : Int) ^ i.toNat)
  let n := match nDefault with
    | none => none
    | some d =>
        match kwargs.lookup "n" with
        | some v => scalarToIntOpt v
        | none => some d
  let mDefault := ((kwargs.lookup "M").bind scalarToIntOpt).map (fun i => (2 : Int) ^ i.toNat)
  let m := match mDefault with
    | none => none
    | some d =>
        match kwargs.lookup "m" with
        | some v => scalarToIntOpt v
        | none => some d
  let sw := match kwargs.lookup "scale_weak" with
    | some v => (PyVal.scalar v).truthy
    | none => false
  let ps := dictPopScalar (dictPopScalar (dictPopScalar (dictPopScalar (dictPopScalar
    kwargs "n") "N") "m") "M") "scale_weak"
  ⟨n, m, sw, ps⟩

/-- `KaGenGraph.get_n`: the weak-scaled vertex count `n * p` (or `n`
unscaled).  The source would raise on `n = None`; its callers guard the
call with `if self.n:`, modelled here by mapping over the option. -/
def KaGenGraph.get_n (g : KaGenGraph) (p : Int) : Option Int :=
  g.n.map (fun v => if g.scale_weak then v * p else v)

/-- `KaGenGraph.get_m`, analogous to `get_n`. -/
def KaGenGraph.get_m (g : KaGenGraph) (p : Int) : Option Int :=
  g.m.map (fun v => if g.scale_weak then v * p else v)

/-- `KaGenGraph.preprocess_file_based_graphs_params`: for
`partitioned_file` / `partitioned-file` inputs, rewrite the filename with
the rank count, downgrade the type to `file`, and attach the explicit
distribution sidecar; all other types pass through unchanged.  `none`
models the exceptions of the rewrite path (missing/dotless filename). -/
def KaGenGraph.preprocess_file_based_graphs_params (g : KaGenGraph) (mpi_ranks : Int) :
    Option (List (String × Scalar)) :=
  let params := g.params
  if params.lookup "type" = some (.str "partitioned_file")
      ∨ params.lookup "type" = some (.str "partitioned-file") then
    match params.lookup "filename" with
    | some (.str filename) =>
        match rsplitDot filename with
        | some (path, graph_format) =>
            let extended := path ++ "_" ++ toString mpi_ranks ++ "." ++ graph_format
            some (dictSetScalar (dictSetScalar (dictSetScalar (dictSetScalar params
              "type" (.str "file")) "filename" (.str extended))
              "distribution" (.str "explicit"))
              "explicit-distribution" (.str (extended ++ ".partitions")))
        | none => none
    | _ => none
  else some params

/-- `KaGenGraph.args`: renders the single `--kagen_option_string` option —
stringified parameters, then `n=`/`m=` with the (possibly weak-scaled)
counts for `p = mpi_ranks * threads_per_rank`, joined with `;` and
optionally double-quoted.  There is no power-of-two validation anywhere on
this path. -/
def KaGenGraph.args (g : KaGenGraph) (mpi_ranks threads_per_rank : Int) (escape : Bool) :
    Option (List String) := do
  let p := mpi_ranks * threads_per_rank
  let params ← g.preprocess_file_based_graphs_params mpi_ranks
  let strs := stringify_params params
  let strs := if optIntTruthy g.n then strs ++ ["n=" ++ optIntStr (g.get_n p)] else strs
  let strs := if optIntTruthy g.m then strs ++ ["m=" ++ optIntStr (g.get_m p)] else strs
  let s := String.intercalate ";" strs
  pure ["--kagen_option_string", if escape then "\"" ++ s ++ "\"" else s]

/-!
## Input descriptors: freeform inputs (expcore.py `DummyInstance`)
-/

/-- The abnormal terminations of the modelled Python fragment. -/
inductive PyErr where
  | systemExit
  | attributeError (name : String)
  | valueError (msg : String)
  | nameError (name : String)
deriving DecidableEq

/-- expcore.py `DummyInstance` after `__init__`: the instance name, the
parsed weak-scaling parameter set (`scale_weak` entry, scalar or list,
normalised to a list of keys), and the remaining parameter bag. -/
structure DummyInstance where
  name_ : String
  scale_weak_params : List String
  params : Params
deriving DecidableEq

/-- `DummyInstance.do_scale_parameter`: membership in the weak-scaling
set. -/
def DummyInstance.do_scale_parameter (d : DummyInstance) (parameter : String) : Bool :=
  d.scale_weak_params.contains parameter

/-- `DummyInstance.get_scaled_value`: scales an integer value by `p` for a
weak-scaling parameter, raising `ValueError` for a non-integer value.  Note
that Python's `isinstance(value, int)` accepts bools.  This method is
defined by the class but never called: `args` calls the nonexistent
`get_scaled_arg_value` instead. -/
def DummyInstance.get_scaled_value (d : DummyInstance) (parameter : String)
    (value : PyVal) (p : Int) : Except PyErr Int :=
  if d.do_scale_parameter parameter then
    match value with
    | .scalar (.int v) => .ok (v * p)
    | .scalar (.bool b) => .ok ((if b then 1 else 0) * p)
    | _ => .error (.valueError ("Weak scaling parameter " ++ parameter ++
        " has a non-integer value."))
  else
    match value with
    | .scalar (.int v) => .ok v
    | .scalar (.bool b) => .ok (if b then 1 else 0)
    | _ => .error (.valueError "int() failed")

/-- The `parse_argument` closure inside `DummyInstance.args`, for one entry.
For a weak-scaling key with at least one value, the list comprehension
evaluates `self.get_scaled_arg_value(arg_key, val, p)` — no attribute of
that name exists anywhere (the class defines `get_scaled_value`), so the
call raises `AttributeError` regardless of the value; with zero values no
call is made and only the separating space is appended. -/
def DummyInstance.renderParam (d : DummyInstance) (p : Int) (t : CLIArgumentType)
    (key : String) (v : PyVal) : Except PyErr String :=
  let param :=
    if ¬ is_argument_positional t ∧ (¬ is_argument_flag_only t v ∨ v.truthy) then
      flagToken key
    else ""
  if ¬ is_argument_flag_only t v then
    let vals := match v with
      | .list xs => xs
      | w => [w]
    if d.do_scale_parameter key then
      match vals with
      | [] => .ok (param ++ " ")
      | _ :: _ => .error (.attributeError "get_scaled_arg_value")
    else
      .ok (param ++ " " ++ String.intercalate " " (vals.map quotedToken))
  else .ok param

/-- The `for_each_argument` fold of `DummyInstance.args` over the parameter
bag, keeping the non-empty rendered strings. -/
def DummyInstance.argsGo (d : DummyInstance) (p : Int) : Params → Except PyErr (List String)
  | [] => .ok []
  | (key, pv) :: rest => do
      match for_each_argument_view pv with
      | none => .error .systemExit
      | some (t, v) => do
          let param ← d.renderParam p t key v
          let tail ← d.argsGo p rest
          if param = "" then pure tail else pure (param :: tail)

/-- expcore.py `DummyInstance.args` (the `escape` parameter is accepted and
ignored by the source as well). -/
def DummyInstance.args (d : DummyInstance) (mpi_ranks threads_per_rank : Int)
    (escape : Bool) : Except PyErr (List String) :=
  d.argsGo (mpi_ranks * threads_per_rank) d.params

/-!
## Suite input resolution (expcore.py `ExperimentSuite.load_inputs`)

`FileInputGraph` objects and their `partitions` dicts are mutable Python
objects; both get their own heap so that the sharing created by the shallow
`copy.copy` (the copied object holds a reference to the *same* partitions
dict as the catalog instance) is represented faithfully.
-/

/-- The partition-file map of a `FileInputGraph`: rank count to path. -/
abbrev PartMap := List (Int × String)

/-- Heap of partition dicts. -/
abbrev PartHeap := List PartMap

/-- A `FileInputGraph` object: its (slugified) name, the `partitioned`
attribute, and a reference to its partitions dict. -/
structure FileObj where
  name : String
  partitioned : Bool
  partsRef : Nat
deriving DecidableEq

/-- Heap of `FileInputGraph` objects. -/
abbrev ObjHeap := List FileObj

/-- One entry of a suite's raw `inputs` list: a bare name, a
`(name, partitioned)` pair, or an already-concrete descriptor object. -/
inductive SuiteInput where
  | str (s : String)
  | tup (s : String) (partitioned : Bool)
  | obj (a : Nat)
deriving DecidableEq

/-- Assignment `d[k] = v` on a rank-keyed dict. -/
def partMapSet : PartMap → Int → String → PartMap
  | [], k, v => [(k, v)]
  | (k', v') :: rest, k, v =>
      if k' = k then (k, v) :: rest else (k', v') :: partMapSet rest k v

/-- Python `old.update(new)`: existing keys overwritten in place, new keys
appended in the order of `new`. -/
def partMapUpdate (old new : PartMap) : PartMap :=
  new.foldl (fun acc kv => partMapSet acc kv.1 kv.2) old

/-- expcore.py `ExperimentSuite.load_inputs`, one loop iteration at a time.
`gname` is the state of the loop-local variable `graph_name`, which is
assigned *only* in the tuple branch; the soft-failure log line
`logging.warn(f"Could not load input for {graph_name}")` reads it, so a
missing bare-string input with no previously processed tuple entry raises
`UnboundLocalError` (modelled as `.nameError "graph_name"`).  For a found
name, `input = copy.copy(...)` allocates a new object sharing `partsRef`
with the catalog instance; the partitioned branch then runs
`input.add_partitions(partitions.get(name, {}))`, whose
`self.partitions.update(...)` mutates the shared partitions dict in place,
and sets the `partitioned` attribute on the fresh copy only. -/
def ExperimentSuite.load_inputs_go (input_dict : List (String × Nat))
    (partitions : List (String × PartMap)) :
    ObjHeap → PartHeap → Option String → List SuiteInput →
    Except PyErr (ObjHeap × PartHeap × List Nat)
  | objs, parts, _, [] => .ok (objs, parts, [])
  | objs, parts, gname, .obj a :: rest => do
      let (objs', parts', out) ←
        ExperimentSuite.load_inputs_go input_dict partitions objs parts gname rest
      .ok (objs', parts', a :: out)
  | objs, parts, gname, .str s :: rest =>
      match input_dict.lookup s with
      | none =>
          match gname with
          | none => .error (.nameError "graph_name")
          | some _ =>
              ExperimentSuite.load_inputs_go input_dict partitions objs parts gname rest
      | some a =>
          match objs.get? a with
          | none => .error (.nameError "catalog")
          | some g => do
              let na := objs.length
              let (objs', parts', out) ←
                ExperimentSuite.load_inputs_go input_dict partitions (objs ++ [g]) parts
                  gname rest
              .ok (objs', parts', na :: out)
  | objs, parts, _, .tup s b :: rest =>
      match input_dict.lookup s with
      | none =>
          ExperimentSuite.load_inputs_go input_dict partitions objs parts (some s) rest
      | some a =>
          match objs.get? a with
          | none => .error (.nameError "catalog")
          | some g =>
              if b then
                match parts.get? g.partsRef with
                | none => .error (.nameError "partitions")
                | some pm => do
                    let na := objs.length
                    let newParts := (partitions.lookup s).getD []
                    let parts1 := parts.set g.partsRef (partMapUpdate pm newParts)
                    let objs1 := objs ++ [{ g with partitioned := b }]
                    let (objs', parts', out) ←
                      ExperimentSuite.load_inputs_go input_dict partitions objs1 parts1
                        (some s) rest
                    .ok (objs', parts', na :: out)
              else do
                let na := objs.length
                let (objs', parts', out) ←
                  ExperimentSuite.load_inputs_go input_dict partitions (objs ++ [g]) parts
                    (some s) rest
                .ok (objs', parts', na :: out)

/-- expcore.py `ExperimentSuite.load_inputs`: the loop starting with the
local variable `graph_name` unbound. -/
def ExperimentSuite.load_inputs (input_dict : List (String × Nat))
    (partitions : List (String × PartMap)) (objs : ObjHeap) (parts : PartHeap)
    (inputs : List SuiteInput) : Except PyErr (ObjHeap × PartHeap × List Nat) :=
  ExperimentSuite.load_inputs_go input_dict partitions objs parts none inputs

/-!
## Job sizing and job naming (runners.py)
-/

/-- runners.py `SBatchRunner.required_nodes`:
`int(max(int(m.ceil(float(cores) / tasks_per_node)), 1))`.  For a positive
`tasks_per_node` and the integer magnitudes in scope the float ceiling is
exact, so this is the natural-number ceiling division with a floor of 1
(`tasks_per_node = 0` would raise `ZeroDivisionError` in Python and is
outside the modelled fragment). -/
def SBatchRunner.required_nodes (cores tasks_per_node : Nat) : Nat :=
  max ((cores + tasks_per_node - 1) / tasks_per_node) 1

/-- The outcome of `HorekaRunner.get_queue`: either a queue-class string, or
— above the node ceiling — a `ValueError` *object returned as the result*
(the source says `return ValueError(...)`, not `raise`, so no exception is
thrown and the caller receives the exception object as its queue value). -/
inductive QueueResult where
  | queue (s : String)
  | valueErrorReturned (msg : String)
deriving DecidableEq

/-- runners.py `HorekaRunner.get_queue`. -/
def HorekaRunner.get_queue (cores tasks_per_node : Nat) (use_test_partition : Bool) :
    QueueResult :=
  let nodes := SBatchRunner.required_nodes cores tasks_per_node
  if nodes ≤ 12 then
    .queue (if use_test_partition then "dev_cpuonly" else "cpuonly")
  else if nodes ≤ 192 then
    .queue "cpuonly"
  else
    .valueErrorReturned "Cannot use more than 192 compute nodes on HoreKa!"

/-- runners.py `BaseRunner.config_name`.  Parameters appear in the source
order `(iinput, input, mpi_ranks=None, threads=None, iconfig=None,
cores=None, seed=None)`; `input_name` stands for `input.short_name` /
`str(input)`.  Truthiness (`if cores:` / `if threads:` / `if seed:`) treats
`None` and `0` as absent; `iconfig` is tested with `is not None`. -/
def BaseRunner.config_name (iinput : Nat) (input_name : String)
    (mpi_ranks threads : Option Int) (iconfig : Option Int) (cores : Option Int)
    (seed : Option Int) : String :=
  let config := "in" ++ toString iinput ++ "_" ++ input_name
  let config :=
    if optIntTruthy cores then
      config ++ "-p" ++ optIntStr cores
    else
      let c := config ++ "-r" ++ optIntStr mpi_ranks
      let c := if optIntTruthy threads then c ++ "-t" ++ optIntStr threads else c
      if iconfig ≠ none then c ++ "-c" ++ optIntStr iconfig else c
  if optIntTruthy seed then config ++ "-s" ++ optIntStr seed else config

/-- runners.py `BaseRunner.jobname`: the suite name prefixed to
`config_name` with the same parameters. -/
def BaseRunner.jobname (suite_name : String) (iinput : Nat) (input_name : String)
    (mpi_ranks threads : Option Int) (iconfig : Option Int) (cores : Option Int)
    (seed : Option Int) : String :=
  suite_name ++ "-" ++
    BaseRunner.config_name iinput input_name mpi_ranks threads iconfig cores seed

/-- The call `self.config_name(iinput, input, mpi_ranks, threads, i, seed)`
in `SharedMemoryRunner.execute` (runners.py): six *positional* arguments
against the parameter list `(iinput, input, mpi_ranks, threads, iconfig,
cores, seed)`, so the seed binds the `cores` parameter and the `seed`
parameter keeps its default `None`. -/
def SharedMemoryRunner.execute_config_name (iinput : Nat) (input_name : String)
    (mpi_ranks threads iconfig seed : Int) : String :=
  BaseRunner.config_name iinput input_name (some mpi_ranks) (some threads)
    (some iconfig) (some seed) none

/-- The call `self.jobname(iinput, input, mpi_ranks, threads_per_rank, i,
seed)` in `SBatchRunner.execute` (runners.py): the same positional binding,
with the seed landing in the `cores` slot. -/
def SBatchRunner.execute_config_jobname (suite_name : String) (iinput : Nat)
    (input_name : String) (mpi_ranks threads iconfig seed : Int) : String :=
  BaseRunner.jobname suite_name iinput input_name (some mpi_ranks) (some threads)
    (some iconfig) (some seed) none

/-- The aggregate batch job name `self.jobname(iinput, input, cores=ncores)`
in `SBatchRunner.execute`. -/
def SBatchRunner.execute_aggregate_jobname (suite_name : String) (iinput : Nat)
    (input_name : String) (ncores : Int) : String :=
  BaseRunner.jobname suite_name iinput input_name none none none (some ncores) none

/-!
## Persisted run metadata (runners.py `BaseRunner.dump_config`)

The suite's configuration records are mutable top-level dicts; they live in
their own heap so that the `copy.deepcopy` preceding the `idx` injection is
distinguishable from mutation of the suite's own records.
-/

/-- A top-level configuration record as serialized: string keys to values
(for serialization purposes the per-option wrapper dicts are plain values —
`dump_config` never mutates them). -/
abbrev Record := List (String × PyVal)

/-- Heap of top-level configuration records. -/
abbrev RecordHeap := List Record

/-- Assignment `c[k] = v` on a record. -/
def Record.setKey : Record → String → PyVal → Record
  | [], k, v => [(k, v)]
  | (k', v') :: rest, k, v =>
      if k' = k then (k, v) :: rest else (k', v') :: Record.setKey rest k v

/-- The record stored at an address (`[]` for a dangling address, which the
claims never produce). -/
def resolveRecord (σ : RecordHeap) (a : Nat) : Record :=
  (σ.get? a).getD []

/-- `copy.deepcopy(experiment_suite.configs)`: allocate a fresh record for
every entry of the list. -/
def deepcopyRecords (σ : RecordHeap) : List Nat → RecordHeap × List Nat
  | [] => (σ, [])
  | a :: rest =>
      let na := σ.length
      let (σ', out) := deepcopyRecords (σ ++ [resolveRecord σ a]) rest
      (σ', na :: out)

/-- `for i, c in enumerate(configs): c["idx"] = i`: in-place mutation of the
given records, numbering from `start`. -/
def injectIdx (σ : RecordHeap) (start : Nat) : List Nat → RecordHeap
  | [] => σ
  | a :: rest =>
      injectIdx (σ.set a (Record.setKey (resolveRecord σ a) "idx"
        (.scalar (.int start)))) (start + 1) rest

/-- runners.py `BaseRunner.dump_config`, restricted to its effect on
program state (the JSON file write is I/O, out of scope): deep-copy the
suite's config records, inject the sequential `idx` field into the copies,
and return the heap afterwards together with the addresses of the persisted
records. -/
def BaseRunner.dump_config (σ : RecordHeap) (configs : List Nat) :
    RecordHeap × List Nat :=
  let (σ1, fresh) := deepcopyRecords σ configs
  (injectIdx σ1 0 fresh, fresh)

/-!
## Notions used by the explosion-engine theorems
-/

/-- Inertness of a resolved record entry: a non-list raw value, or a wrapper
dict whose type string parses and whose (type, value) pair is not explosive.
An inert entry is skipped by the pivot scan of `explode`. -/
def inertResolved : Resolved → Bool
  | .raw v => ¬ v.isList
  | .dict ty v =>
      match get_argument_type_from_str ty with
      | some t => ¬ is_argument_explosive t v
      | none => false
  | .dangling => false

/-- Inertness of a record entry, read through the heap. -/
def inertEntryB (σ : Heap) (e : String × EntryVal) : Bool :=
  inertResolved (resolveEntry σ e.2)

/-- The relation between a source entry and its deep copy, relative to the
memo produced by the copy: keys coincide, raw values are unchanged, and a
reference is redirected according to the memo. -/
def copiedEntry (m : List (Nat × Nat)) (src out : String × EntryVal) : Prop :=
  src.1 = out.1 ∧
    match src.2, out.2 with
    | .raw v, .raw w => v = w
    | .ref b0, .ref b => (b0, b) ∈ m
    | _, _ => False

/-- Shape of an inner list that the amended claim C2 covers: a list that is
either empty or contains at least one non-list element (so that it is not
explosive again in the recursive call). -/
def flatInner : PyVal → Bool
  | .list xs => xs.isEmpty || ¬ xs.all PyVal.isList
  | _ => false

/-!
## Concrete instances used by the claims
-/

/-- A KaGen generator input constructed with vertex-count exponent `N = 10`
and weak scaling enabled (claim C4). -/
def kagenWeakN10 : KaGenGraph :=
  KaGenGraph.ofKwargs [("type", .str "rgg2d"), ("N", .int 10), ("scale_weak", .bool true)]

/-- A freeform (dummy) input whose parameter `n` is in the weak-scaling set
and carries the integer value 2 (claim C5). -/
def dummyWeak : DummyInstance :=
  ⟨"dummy", ["n"], [("n", .raw (.scalar (.int 2)))]⟩

/-!
## General list-heap lemmas
-/

instance {ε α : Type} [DecidableEq ε] [DecidableEq α] : DecidableEq (Except ε α)
  | .ok a, .ok b => decidable_of_iff (a = b) (by simp)
  | .error a, .error b => decidable_of_iff (a = b) (by simp)
  | .ok _, .error _ => isFalse (fun h => Except.noConfusion h)
  | .error _, .ok _ => isFalse (fun h => Except.noConfusion h)

theorem hget_append {α : Type} (l l' : List α) (n : Nat) (h : n < l.length) :
    (l ++ l').get? n = l.get? n := by
  simp [List.get?_eq_getElem?, List.getElem?_append_left h]

theorem hget_concat {α : Type} (l : List α) (a : α) : (l ++ [a]).get? l.length = some a := by
  simp [List.get?_eq_getElem?]

theorem hget_set_ne {α : Type} (l : List α) (a b : Nat) (d : α) (h : a ≠ b) :
    (l.set a d).get? b = l.get? b := by
  simp [List.get?_eq_getElem?, List.getElem?_set_ne h]

theorem hget_set_lt {α : Type} (l : List α) (a : Nat) (d : α) (h : a < l.length) :
    (l.set a d).get? a = some d := by
  simp [List.get?_eq_getElem?, List.getElem?_set_eq_of_lt d h]

theorem hget_lt_len {α : Type} (l : List α) (n : Nat) (x : α) (h : l.get? n = some x) :
    n < l.length := by
  rw [List.get?_eq_getElem?] at h
  exact (List.getElem?_eq_some.mp h).1

/-!
## Claim theorems (concrete evaluations)
-/

/-- C1: the claim says exploding a record with one explosive option of
cardinality k yields k structurally independent records whose multiset of
values equals the original value list.  Evaluating the source on the record
`{"key": {"type": "flag", "value": [1, 2, 3]}}` shows the failure: the
scalar branch of `explode` shallow-copies the record, so all three variants
share the single wrapper dict, whose in-place mutation leaves every variant
(and the input record) carrying the *last* value 3 — the produced values are
`[3, 3, 3]`, not `[1, 2, 3]`, contradicting the example spelled out in the
source's own comment inside `is_argument_explosive`. -/
theorem c1_explode_mutates_shared_dict :
    (explode [⟨"flag", .list [.scalar (.int 1), .scalar (.int 2), .scalar (.int 3)]⟩]
        [("key", .ref 0)]).map (fun r => r.2.map (resolveConfig r.1)) =
      some [[("key", .dict "flag" (.scalar (.int 3)))],
            [("key", .dict "flag" (.scalar (.int 3)))],
            [("key", .dict "flag" (.scalar (.int 3)))]] := by
  decide

/-- C3: boolean Flag rendering behaves as claimed (`false` emits nothing,
`true` emits exactly the flag token, with `-k` for a one-character key), and
a non-boolean Flag emits the flag token followed by the quoted value; but a
`flag_list` option emits *no* flag token at all: because the enum member
`FLAG_LIST` carries the value `"positional_list"`, it is an alias of
`POSITIONAL_LIST`, so `is_argument_positional` is true for it and the
rendered string is just the quoted values (with the leading separator
space), here `" \"x\""` instead of the claimed `--key "x"`. -/
theorem c3_flag_rendering_flag_list_alias :
    params_to_args [("key", .typed "flag" (.scalar (.bool false)))] = some []
  ∧ params_to_args [("key", .typed "flag" (.scalar (.bool true)))] = some ["--key"]
  ∧ params_to_args [("k", .typed "flag" (.scalar (.bool true)))] = some ["-k"]
  ∧ params_to_args [("key", .typed "flag" (.scalar (.str "x")))] = some ["--key \"x\""]
  ∧ params_to_args [("key", .typed "flag_list" (.list [.scalar (.str "x")]))] =
      some [" \"x\""]
  ∧ get_argument_type_from_str "flag_list" = get_argument_type_from_str "positional_list"
  := by
  refine ⟨by decide, by decide, by decide, by decide, by decide, by decide⟩

/-- C4 counterexample: the claim says rendering the weak-scaled `N = 10`
KaGen input at the non-power-of-two process count 6 fails with a fatal
error; evaluating the source shows rendering *succeeds* — `KaGenGraph` has
no power-of-two validation — and emits `n = 1024 * 6 = 6144`. -/
theorem c4_counterexample_renders_at_p6 :
    kagenWeakN10.args 6 1 false = some ["--kagen_option_string", "type=rgg2d;n=6144"] := by
  decide

/-- C4 as amended: with `N = 10` (so `n = 2^10`) and weak scaling, rendering
at total process count `8 = mpi_ranks * threads_per_rank` yields the
effective vertex count `8192 = 2^13` (log2 exponent 13); at process count 6
rendering also succeeds with `n = 6144` — the KaGen path multiplies `n` by
the process count without any power-of-two validation. -/
theorem c4_weak_scaling_multiplies_n :
    kagenWeakN10.n = some 1024
  ∧ kagenWeakN10.get_n 8 = some 8192
  ∧ (8192 : Int) = 2 ^ 13
  ∧ kagenWeakN10.args 8 1 false = some ["--kagen_option_string", "type=rgg2d;n=8192"]
  ∧ kagenWeakN10.args 4 2 false = some ["--kagen_option_string", "type=rgg2d;n=8192"]
  ∧ kagenWeakN10.get_n 6 = some 6144
  := by
  refine ⟨by decide, by decide, by decide, by decide, by decide, by decide⟩

/-- C5: the claim says a weak-scaling parameter with integer value is
multiplied by the process count and emitted, and only a non-integer value is
a fatal error.  Evaluating `DummyInstance.args` on a weak-scaled *integer*
parameter shows it raises `AttributeError` instead: the rendering loop calls
`self.get_scaled_arg_value(...)`, a method that exists nowhere (the class
defines `get_scaled_value`, which is never called and would have implemented
exactly the claimed behavior, as the last conjunct shows). -/
theorem c5_weak_scaling_attribute_error :
    dummyWeak.args 2 1 true = .error (.attributeError "get_scaled_arg_value")
  ∧ dummyWeak.do_scale_parameter "n" = true
  ∧ dummyWeak.get_scaled_value "n" (.scalar (.int 2)) 2 = .ok 4
  ∧ dummyWeak.get_scaled_value "n" (.scalar (.str "x")) 2 =
      .error (.valueError "Weak scaling parameter n has a non-integer value.")
  := by
  refine ⟨by decide, by decide, by decide, by decide⟩

/-- C6: the claim says an input entry whose name is absent from the catalog
is always handled softly (logged and skipped) for every entry form.
Evaluating `load_inputs` on a suite whose first entry is a *bare string*
naming a missing input shows the soft path itself raises: the log line
interpolates the loop variable `graph_name`, which is assigned only in the
tuple branch, so the lookup failure hits an unbound local
(`UnboundLocalError`).  The `(name, partitioned)` pair form is indeed soft,
as the second conjunct shows. -/
theorem c6_missing_bare_name_unbound_local :
    ExperimentSuite.load_inputs [] [] [] [] [SuiteInput.str "missing"] =
      .error (.nameError "graph_name")
  ∧ ExperimentSuite.load_inputs [] [] [] [] [SuiteInput.tup "missing" false] =
      .ok ([], [], [])
  := by
  refine ⟨by decide, by decide⟩

/-- C7: the claim says resolving a partitioned input leaves the catalog's
descriptor instance unchanged — both its partitioned flag and its partitions
map.  Evaluating `load_inputs` on a catalog holding one descriptor (object
address 0, `partitioned = false`, partitions dict at address 0, initially
empty) shows that the attribute flag of the catalog object indeed keeps its
value, but the partitions *dict* ends up holding the attached entry: the
shallow `copy.copy` shares the dict between the copy and the catalog
instance, and `add_partitions` mutates it in place. -/
theorem c7_partition_attach_mutates_catalog_dict :
    ExperimentSuite.load_inputs [("g", 0)] [("g", [(4, "g.4.part")])]
        [⟨"g", false, 0⟩] [[]] [SuiteInput.tup "g" true] =
      .ok ([⟨"g", false, 0⟩, ⟨"g", true, 0⟩], [[(4, "g.4.part")]], [1]) := by
  decide

/-- C8: the claim says exceeding the 192-node ceiling on HoreKa raises an
exception from queue-class selection, terminating the invocation.
Evaluating the source at 193 required nodes (cores = 76 * 193 = 14668,
76 tasks per node) shows no exception is raised: `get_queue` *returns* the
`ValueError` object as its result (`return ValueError(...)` instead of
`raise`), so the caller receives the exception object as the queue value; at
the ceiling (192 nodes) a valid queue string is returned. -/
theorem c8_horeka_returns_value_error :
    HorekaRunner.get_queue 14668 76 false =
      .valueErrorReturned "Cannot use more than 192 compute nodes on HoreKa!"
  ∧ SBatchRunner.required_nodes 14668 76 = 193
  ∧ HorekaRunner.get_queue 14592 76 false = .queue "cpuonly"
  ∧ SBatchRunner.required_nodes 14592 76 = 192
  ∧ HorekaRunner.get_queue 100 48 true = .queue "dev_cpuonly"
  := by
  refine ⟨by decide, by decide, by decide, by decide, by decide⟩

/-- C9: the claim says every per-job name follows
`in<i>_<name>-r<ranks>-t<threads>-c<config>-s<seed>` with the seed as the
trailing segment.  Both execute call sites pass the seed as the sixth
*positional* argument, which binds the `cores` parameter (the `seed`
parameter keeps its default `None`), so the produced name for ranks 4,
threads 2, config 1, seed 7 is `in0_g-p7` — the seed lands in a `-p` segment
that suppresses the rank/thread/config segments, and no `-s` segment is ever
emitted (with seed 0 the name degenerates to `in0_g-r4-t2-c1`).  The
aggregate name (keyword call `cores=ncores`) is the `-p<cores>` form. -/
theorem c9_seed_lands_in_cores_slot :
    SharedMemoryRunner.execute_config_name 0 "g" 4 2 1 7 = "in0_g-p7"
  ∧ SBatchRunner.execute_config_jobname "suite" 0 "g" 4 2 1 7 = "suite-in0_g-p7"
  ∧ SharedMemoryRunner.execute_config_name 0 "g" 4 2 1 0 = "in0_g-r4-t2-c1"
  ∧ SBatchRunner.execute_aggregate_jobname "suite" 0 "g" 64 = "suite-in0_g-p64"
  := by
  refine ⟨by decide, by decide, by decide, by decide⟩

/-!
## C10: `dump_config` and the suite's configuration records
-/

theorem hget_append_cons {α : Type} (l : List α) (x : α) (r : List α) :
    (l ++ x :: r).get? l.length = some x := by
  induction l with
  | nil => rfl
  | cons e rest ih => simpa using ih

theorem hset_append_cons {α : Type} (l : List α) (x d : α) (r : List α) :
    (l ++ x :: r).set l.length d = l ++ d :: r := by
  induction l with
  | nil => rfl
  | cons e rest ih => simpa using ih

theorem resolveRecord_append (σ ext : RecordHeap) (a : Nat) (h : a < σ.length) :
    resolveRecord (σ ++ ext) a = resolveRecord σ a := by
  unfold resolveRecord
  rw [hget_append σ ext a h]

theorem deepcopyRecords_eq (σ : RecordHeap) (refs : List Nat)
    (h : ∀ a ∈ refs, a < σ.length) :
    deepcopyRecords σ refs =
      (σ ++ refs.map (resolveRecord σ), List.range' σ.length refs.length) := by
  induction refs generalizing σ with
  | nil => simp [deepcopyRecords]
  | cons a rest ih =>
      have ha : a < σ.length := h a (by simp)
      have hrest : ∀ x ∈ rest, x < (σ ++ [resolveRecord σ a]).length := by
        intro x hx
        have := h x (by simp [hx])
        simp only [List.length_append, List.length_singleton]
        omega
      simp only [deepcopyRecords, ih _ hrest]
      refine Prod.ext ?_ ?_
      · show (σ ++ [resolveRecord σ a]) ++ rest.map (resolveRecord (σ ++ [resolveRecord σ a]))
          = σ ++ (resolveRecord σ a :: rest.map (resolveRecord σ))
        rw [List.append_assoc]
        have hmap : rest.map (resolveRecord (σ ++ [resolveRecord σ a])) =
            rest.map (resolveRecord σ) := by
          apply List.map_congr_left
          intro x hx
          exact resolveRecord_append σ _ x (h x (by simp [hx]))
        rw [hmap]
        rfl
      · show σ.length :: List.range' (σ ++ [resolveRecord σ a]).length rest.length
          = List.range' σ.length (rest.length + 1)
        rw [List.range'_succ]
        simp

theorem injectIdx_eq (σ ext : RecordHeap) (k : Nat) :
    injectIdx (σ ++ ext) k (List.range' σ.length ext.length) =
      σ ++ (List.enumFrom k ext).map
        (fun p => Record.setKey p.2 "idx" (.scalar (.int p.1))) := by
  induction ext generalizing σ k with
  | nil => simp [injectIdx]
  | cons e rest ih =>
      show injectIdx (σ ++ e :: rest) k (List.range' σ.length (rest.length + 1)) = _
      rw [List.range'_succ]
      simp only [injectIdx, resolveRecord, hget_append_cons, Option.getD_some,
        hset_append_cons]
      have hσ : σ ++ Record.setKey e "idx" (.scalar (.int k)) :: rest =
          (σ ++ [Record.setKey e "idx" (.scalar (.int k))]) ++ rest := by
        simp
      have hlen : σ.length + 1 = (σ ++ [Record.setKey e "idx" (.scalar (.int k))]).length := by
        simp
      rw [hσ, hlen, ih]
      simp [List.enumFrom]

theorem range'_map_resolve (add : RecordHeap) :
    ∀ σ : RecordHeap, (List.range' σ.length add.length).map (resolveRecord (σ ++ add)) = add := by
  induction add with
  | nil => simp
  | cons e rest ih =>
      intro σ
      show (List.range' σ.length (rest.length + 1)).map (resolveRecord (σ ++ e :: rest)) = _
      rw [List.range'_succ]
      simp only [List.map_cons, resolveRecord, hget_append_cons, Option.getD_some]
      have hσ : σ ++ e :: rest = (σ ++ [e]) ++ rest := by simp
      have hlen : σ.length + 1 = (σ ++ [e]).length := by simp
      rw [hσ, hlen, ih (σ ++ [e])]

/-- C10: `dump_config` leaves the suite it serializes unchanged — every
record of the suite's config heap reads back exactly as before the call (in
particular no `idx` key is added to any stored record), because the records
are deep-copied before the injection; the persisted copies are the original
records with the sequential `idx` field set. -/
theorem c10_dump_config_preserves_suite (σ : RecordHeap) (configs : List Nat)
    (h : ∀ a ∈ configs, a < σ.length) :
    (∀ a, a < σ.length → (BaseRunner.dump_config σ configs).1.get? a = σ.get? a)
  ∧ (BaseRunner.dump_config σ configs).2.map
        (resolveRecord (BaseRunner.dump_config σ configs).1) =
      (List.enumFrom 0 (configs.map (resolveRecord σ))).map
        (fun p => Record.setKey p.2 "idx" (.scalar (.int p.1))) := by
  have hdc := deepcopyRecords_eq σ configs h
  have hlen : (configs.map (resolveRecord σ)).length = configs.length := by simp
  constructor
  · intro a ha
    show (BaseRunner.dump_config σ configs).1.get? a = σ.get? a
    unfold BaseRunner.dump_config
    rw [hdc]
    show (injectIdx (σ ++ configs.map (resolveRecord σ)) 0
        (List.range' σ.length configs.length)).get? a = σ.get? a
    rw [← hlen, injectIdx_eq σ (configs.map (resolveRecord σ)) 0]
    exact hget_append σ _ a ha
  · unfold BaseRunner.dump_config
    rw [hdc]
    show (List.range' σ.length configs.length).map
        (resolveRecord (injectIdx (σ ++ configs.map (resolveRecord σ)) 0
          (List.range' σ.length configs.length))) = _
    rw [← hlen, injectIdx_eq σ (configs.map (resolveRecord σ)) 0]
    have hres := range'_map_resolve ((List.enumFrom 0 (configs.map (resolveRecord σ))).map
      (fun p => Record.setKey p.2 "idx" (.scalar (.int p.1)))) σ
    have hlen2 : ((List.enumFrom 0 (configs.map (resolveRecord σ))).map
        (fun p => Record.setKey p.2 "idx" (.scalar (.int p.1)))).length = configs.length := by
      simp
    rw [hlen2] at hres
    rw [hlen]
    exact hres

/-- C10 witness: the theorem applied to a one-record suite. -/
theorem c10_dump_config_witness :
    (∀ a ∈ [0], a < ([[("a", PyVal.scalar (.int 1))]] : RecordHeap).length)
  ∧ ((∀ a, a < ([[("a", PyVal.scalar (.int 1))]] : RecordHeap).length →
        (BaseRunner.dump_config [[("a", PyVal.scalar (.int 1))]] [0]).1.get? a =
          ([[("a", PyVal.scalar (.int 1))]] : RecordHeap).get? a)
  ∧ (BaseRunner.dump_config [[("a", PyVal.scalar (.int 1))]] [0]).2.map
        (resolveRecord (BaseRunner.dump_config [[("a", PyVal.scalar (.int 1))]] [0]).1) =
      (List.enumFrom 0 ([0].map (resolveRecord [[("a", PyVal.scalar (.int 1))]]))).map
        (fun p => Record.setKey p.2 "idx" (.scalar (.int p.1)))) :=
  ⟨by decide, c10_dump_config_preserves_suite [[("a", PyVal.scalar (.int 1))]] [0] (by decide)⟩

/-!
## C2: the list-of-lists explosion, general lemmas
-/

theorem hget_isSome {α : Type} (l : List α) (n : Nat) (h : n < l.length) :
    ∃ x, l.get? n = some x := by
  induction l generalizing n with
  | nil => simp at h
  | cons e rest ih =>
      cases n with
      | zero => exact ⟨e, rfl⟩
      | succ n => exact ih n (by simpa using h)

theorem hfind_append_none {α : Type} (p : α → Bool) (ys : List α) :
    ∀ xs : List α, (∀ x ∈ xs, p x = false) → List.find? p (xs ++ ys) = List.find? p ys := by
  intro xs
  induction xs with
  | nil => simp
  | cons x rest ih =>
      intro h
      have hx := h x (by simp)
      rw [List.cons_append, List.find?_cons_of_neg _ (by simp [hx]), ih
        (fun x hx => h x (List.mem_cons_of_mem _ hx))]

theorem forall2_append_split {α β : Type} (R : α → β → Prop) :
    ∀ (xs ys : List α) (zs : List β), List.Forall₂ R (xs ++ ys) zs →
    ∃ zs1 zs2, zs = zs1 ++ zs2 ∧ List.Forall₂ R xs zs1 ∧ List.Forall₂ R ys zs2 := by
  intro xs
  induction xs with
  | nil => intro ys zs h; exact ⟨[], zs, rfl, List.Forall₂.nil, h⟩
  | cons x rest ih =>
      intro ys zs h
      rcases h with _ | ⟨hR, htail⟩
      rename_i z zs'
      rcases ih ys zs' htail with ⟨zs1, zs2, rfl, h1, h2⟩
      exact ⟨z :: zs1, zs2, rfl, List.Forall₂.cons hR h1, h2⟩

theorem inert_ref_lt (σ : Heap) (k : String) (b : Nat)
    (h : inertEntryB σ (k, EntryVal.ref b) = true) : b < σ.length := by
  rcases hb : σ.get? b with _ | d
  · exfalso
    unfold inertEntryB resolveEntry at h
    simp only at h
    rw [hb] at h
    simp [inertResolved] at h
  · exact hget_lt_len σ b d hb

theorem findPivot_append_inert (σ : Heap) (rest : Config) :
    ∀ pre : Config, (∀ e ∈ pre, inertEntryB σ e = true) →
    findPivot σ (pre ++ rest) = findPivot σ rest := by
  intro pre
  induction pre with
  | nil => simp
  | cons e pre' ih =>
      intro h
      have he := h e (by simp)
      have hrest : ∀ e' ∈ pre', inertEntryB σ e' = true :=
        fun e' he' => h e' (List.mem_cons_of_mem _ he')
      rcases e with ⟨k, v⟩
      cases v with
      | raw w =>
          cases w with
          | scalar s => simpa [findPivot] using ih hrest
          | list xs =>
              exfalso
              simp [inertEntryB, inertResolved, resolveEntry, PyVal.isList] at he
      | ref b =>
          rcases hb : σ.get? b with _ | d
          · exfalso
            have he' := he
            unfold inertEntryB resolveEntry at he'
            simp only at he'
            rw [hb] at he'
            simp [inertResolved] at he'
          · have he' := he
            unfold inertEntryB resolveEntry at he'
            simp only at he'
            rw [hb] at he'
            simp only [inertResolved] at he'
            rcases ht : get_argument_type_from_str d.ty with _ | t
            · exfalso
              rw [ht] at he'
              exact absurd he' (by simp)
            · rw [ht] at he'
              have hexp : is_argument_explosive t d.value = false := by
                simpa using he'
              have hstep : findPivot σ ((k, EntryVal.ref b) :: (pre' ++ rest)) =
                  findPivot σ (pre' ++ rest) := by
                simp only [findPivot]
                rw [hb]
                simp only []
                rw [ht]
                simp [hexp]
              rw [List.cons_append, hstep, ih hrest]

theorem explodeFuel_no_pivot (n : Nat) (σ : Heap) (cfg : Config)
    (h : findPivot σ cfg = some none) :
    explodeFuel (n + 1) σ cfg = some (σ, [cfg]) := by
  simp [explodeFuel, h]

theorem explodeFuel_empty_pivot (n : Nat) (σ : Heap) (cfg : Config) (flag : String) (a : Nat)
    (h : findPivot σ cfg = some (some (.dict flag a []))) :
    explodeFuel (n + 1) σ cfg = some (σ, [cfg]) := by
  simp [explodeFuel, h, foldExplodeDict]

theorem resolveConfig_stable (σ σ' : Heap) (m : Nat) (es : Config)
    (hpres : ∀ i, i < m → σ'.get? i = σ.get? i)
    (hrefs : ∀ e ∈ es, ∀ b, e.2 = EntryVal.ref b → b < m) :
    resolveConfig σ' es = resolveConfig σ es := by
  unfold resolveConfig
  apply List.map_congr_left
  intro e he
  rcases e with ⟨k, v⟩
  cases v with
  | raw w => rfl
  | ref b =>
      have hb := hrefs _ he b rfl
      have h2 := hpres b hb
      rw [List.get?_eq_getElem?, List.get?_eq_getElem?] at h2
      simp [resolveEntry, h2]

theorem resolveConfig_copied (σ0 σ' : Heap) (m : List (Nat × Nat)) (a : Nat) :
    ∀ (es es' : Config), List.Forall₂ (copiedEntry m) es es' →
    (∀ e ∈ es, e.2 ≠ EntryVal.ref a) →
    (∀ q ∈ m, q.1 ≠ a → σ'.get? q.2 = σ0.get? q.1) →
    resolveConfig σ' es' = resolveConfig σ0 es := by
  intro es es' hf
  induction hf with
  | nil => intro _ _; rfl
  | @cons src out es1 es1' hR htail ih =>
      intro hna hm
      have htl := ih (fun e he => hna e (List.mem_cons_of_mem _ he)) hm
      rcases src with ⟨k, v⟩
      rcases out with ⟨k', v'⟩
      rcases hR with ⟨hk, hmatch⟩
      simp only at hk
      cases v with
      | raw w =>
          cases v' with
          | raw w' =>
              simp only [copiedEntry] at hmatch
              simp [resolveConfig, resolveEntry, hk, hmatch] at htl ⊢
              exact htl
          | ref b => exact absurd hmatch (by simp)
      | ref b0 =>
          cases v' with
          | raw w' => exact absurd hmatch (by simp)
          | ref b =>
              simp only [copiedEntry] at hmatch
              have hb0 : b0 ≠ a := by
                intro hEq
                exact hna (k, EntryVal.ref b0) (by simp) (by simp [hEq])
              have hgv := hm (b0, b) hmatch hb0
              rw [List.get?_eq_getElem?, List.get?_eq_getElem?] at hgv
              simp only [resolveConfig, List.map_cons] at htl ⊢
              rw [htl]
              simp [resolveEntry, hgv, hk]

theorem inert_of_resolve_eq (σ σ' : Heap) (es es' : Config)
    (hres : resolveConfig σ' es' = resolveConfig σ es)
    (h : ∀ e ∈ es, inertEntryB σ e = true) :
    ∀ e' ∈ es', inertEntryB σ' e' = true := by
  intro e' he'
  have hmem : (e'.1, resolveEntry σ' e'.2) ∈ resolveConfig σ' es' := by
    unfold resolveConfig
    exact List.mem_map.mpr ⟨e', he', rfl⟩
  rw [hres] at hmem
  unfold resolveConfig at hmem
  rcases List.mem_map.mp hmem with ⟨e, he, heq⟩
  have hval : resolveEntry σ e.2 = resolveEntry σ' e'.2 := congrArg Prod.snd heq
  have := h e he
  unfold inertEntryB at this ⊢
  rw [← hval]
  exact this

theorem keys_of_forall2 (m : List (Nat × Nat)) :
    ∀ (es es' : Config), List.Forall₂ (copiedEntry m) es es' →
    ∀ e' ∈ es', ∃ e ∈ es, e.1 = e'.1 := by
  intro es es' hf
  induction hf with
  | nil => simp
  | @cons src out es1 es1' hR htail ih =>
      intro e' he'
      rcases List.mem_cons.mp he' with rfl | he'
      · exact ⟨src, by simp, hR.1⟩
      · rcases ih e' he' with ⟨e, he, hk⟩
        exact ⟨e, List.mem_cons_of_mem _ he, hk⟩

theorem deepcopyGo_spec (σ0 : Heap) :
    ∀ (es : Config) (σ : Heap) (memo : List (Nat × Nat)),
    σ0.length ≤ σ.length →
    (∀ i, i < σ0.length → σ.get? i = σ0.get? i) →
    (∀ q ∈ memo, q.2 < σ.length ∧ σ.get? q.2 = σ0.get? q.1) →
    (∀ q ∈ memo, ∀ q' ∈ memo, q.2 = q'.2 → q.1 = q'.1) →
    (∀ e ∈ es, ∀ b, e.2 = EntryVal.ref b → b < σ0.length) →
    ∃ σ' m' es',
      deepcopyGo σ memo es = (σ', m', es')
      ∧ σ.length ≤ σ'.length
      ∧ (∀ i, i < σ.length → σ'.get? i = σ.get? i)
      ∧ (∀ q ∈ m', q.2 < σ'.length ∧ σ'.get? q.2 = σ0.get? q.1)
      ∧ (∀ q ∈ m', ∀ q' ∈ m', q.2 = q'.2 → q.1 = q'.1)
      ∧ (∀ q ∈ memo, q ∈ m')
      ∧ (∀ q ∈ m', q ∈ memo ∨ σ.length ≤ q.2)
      ∧ List.Forall₂ (copiedEntry m') es es' := by
  intro es
  induction es with
  | nil =>
      intro σ memo h1 h2 h3 h4 _
      exact ⟨σ, memo, [], rfl, le_refl _, fun _ _ => rfl, h3, h4, fun q hq => hq,
        fun q hq => Or.inl hq, List.Forall₂.nil⟩
  | cons e rest ih =>
      intro σ memo h1 h2 h3 h4 h5
      rcases e with ⟨k, v⟩
      cases v with
      | raw w =>
          rcases ih σ memo h1 h2 h3 h4
              (fun e he b hb => h5 e (List.mem_cons_of_mem _ he) b hb)
            with ⟨σ', m', r', heq, c1, c2, c3, c4, c5, c6, c7⟩
          refine ⟨σ', m', (k, .raw w) :: r', ?_, c1, c2, c3, c4, c5, c6, ?_⟩
          · simp only [deepcopyGo, heq]
          · exact List.Forall₂.cons ⟨rfl, rfl⟩ c7
      | ref b =>
          have hb0 : b < σ0.length := h5 (k, .ref b) (by simp) b rfl
          rcases hfind : memo.find? (fun p => p.1 = b) with _ | p
          · -- memo miss: a fresh dict is allocated at address σ.length
            have hbσ : σ.get? b = σ0.get? b := h2 b hb0
            rcases hget_isSome σ0 b hb0 with ⟨d, hd⟩
            have hsome : σ.get? b = some d := by rw [hbσ, hd]
            have hlenA : (σ ++ [d]).length = σ.length + 1 := by simp
            have h1A : σ0.length ≤ (σ ++ [d]).length := by omega
            have h2A : ∀ i, i < σ0.length → (σ ++ [d]).get? i = σ0.get? i := by
              intro i hi
              rw [hget_append σ [d] i (by omega)]
              exact h2 i hi
            have h3A : ∀ q ∈ (b, σ.length) :: memo,
                q.2 < (σ ++ [d]).length ∧ (σ ++ [d]).get? q.2 = σ0.get? q.1 := by
              intro q hq
              rcases List.mem_cons.mp hq with rfl | hq
              · constructor
                · omega
                · rw [hget_concat σ d, hd]
              · rcases h3 q hq with ⟨hlt, hat⟩
                exact ⟨by omega, by rw [hget_append σ [d] q.2 hlt]; exact hat⟩
            have h4A : ∀ q ∈ (b, σ.length) :: memo, ∀ q' ∈ (b, σ.length) :: memo,
                q.2 = q'.2 → q.1 = q'.1 := by
              intro q hq q' hq' he2
              rcases List.mem_cons.mp hq with rfl | hq <;>
                rcases List.mem_cons.mp hq' with rfl | hq'
              · rfl
              · exfalso; rcases h3 q' hq' with ⟨hlt, _⟩; simp only at he2; omega
              · exfalso; rcases h3 q hq with ⟨hlt, _⟩; simp only at he2; omega
              · exact h4 q hq q' hq' he2
            rcases ih (σ ++ [d]) ((b, σ.length) :: memo) h1A h2A h3A h4A
                (fun e he bb hb => h5 e (List.mem_cons_of_mem _ he) bb hb)
              with ⟨σ', m', r', heq, c1, c2, c3, c4, c5, c6, c7⟩
            refine ⟨σ', m', (k, .ref σ.length) :: r', ?_, ?_, ?_, c3, c4, ?_, ?_, ?_⟩
            · simp only [deepcopyGo, hfind, hsome, heq]
            · omega
            · intro i hi
              rw [c2 i (by omega), hget_append σ [d] i hi]
            · intro q hq
              exact c5 q (List.mem_cons_of_mem _ hq)
            · intro q hq
              rcases c6 q hq with hmem | hge
              · rcases List.mem_cons.mp hmem with rfl | hmem
                · right; omega
                · exact Or.inl hmem
              · right; omega
            · refine List.Forall₂.cons ⟨rfl, ?_⟩ c7
              show (b, σ.length) ∈ m'
              exact c5 (b, σ.length) (by simp)
          · -- memo hit: the existing copy is reused
            have hpmem : p ∈ memo := List.mem_of_find?_eq_some hfind
            have hpk : p.1 = b := by
              have := List.find?_some hfind
              simpa using this
            rcases ih σ memo h1 h2 h3 h4
                (fun e he bb hb => h5 e (List.mem_cons_of_mem _ he) bb hb)
              with ⟨σ', m', r', heq, c1, c2, c3, c4, c5, c6, c7⟩
            refine ⟨σ', m', (k, .ref p.2) :: r', ?_, c1, c2, c3, c4, c5, c6, ?_⟩
            · simp only [deepcopyGo, hfind, heq]
            · refine List.Forall₂.cons ⟨rfl, ?_⟩ c7
              show (b, p.2) ∈ m'
              have hp : (b, p.2) = p := by
                rcases p with ⟨p1, p2⟩
                simp only at hpk
                rw [hpk]
              rw [hp]
              exact c5 p hpmem

theorem refs_of_forall2 (m : List (Nat × Nat)) :
    ∀ (es es' : Config), List.Forall₂ (copiedEntry m) es es' →
    ∀ e' ∈ es', ∀ b, e'.2 = EntryVal.ref b → ∃ b0, (b0, b) ∈ m := by
  intro es es' hf
  induction hf with
  | nil => simp
  | @cons src out es1 es1' hR htail ih =>
      intro e' he' b hb
      rcases List.mem_cons.mp he' with rfl | he'
      · rcases src with ⟨k, v⟩
        rcases hR with ⟨_, hmatch⟩
        cases v with
        | raw w => exact (by rw [hb] at hmatch; exact hmatch.elim)
        | ref b0 =>
            rw [hb] at hmatch
            exact ⟨b0, hmatch⟩
      · exact ih e' he' b hb

theorem setDictValue_pivot (σ2 : Heap) (pre' post' : Config) (flag : String) (na : Nat)
    (d : ArgDict) (arg : PyVal)
    (hkeys : ∀ e ∈ pre', e.1 ≠ flag)
    (hna : σ2.get? na = some d) :
    setDictValue σ2 (pre' ++ (flag, EntryVal.ref na) :: post') flag arg =
      some (σ2.set na ⟨d.ty, arg⟩) := by
  unfold setDictValue
  rw [hfind_append_none _ _ pre' (fun e he => by simp [hkeys e he])]
  rw [List.find?_cons_of_pos _ (by simp)]
  simp only []
  rw [hna]

theorem findPivot_at_pivot (σ : Heap) (pre post : Config) (flag : String) (a : Nat)
    (d : ArgDict) (t : CLIArgumentType) (L : List PyVal)
    (hpre : ∀ e ∈ pre, inertEntryB σ e = true)
    (ha : σ.get? a = some d)
    (hdv : d.value = PyVal.list L)
    (hparse : get_argument_type_from_str d.ty = some t)
    (hexp : is_argument_explosive t d.value = true) :
    findPivot σ (pre ++ (flag, EntryVal.ref a) :: post) = some (some (.dict flag a L)) := by
  rw [findPivot_append_inert σ _ pre hpre]
  simp only [findPivot]
  rw [ha]
  simp only []
  rw [hparse]
  simp only [hexp, if_true]
  rw [hdv]

theorem deepcopyConfig_pivot (σc : Heap) (pre post : Config) (flag : String) (a : Nat)
    (d : ArgDict)
    (ha : σc.get? a = some d)
    (hvpre : ∀ e ∈ pre, ∀ b, e.2 = EntryVal.ref b → b < σc.length)
    (hvpost : ∀ e ∈ post, ∀ b, e.2 = EntryVal.ref b → b < σc.length) :
    ∃ σ2 m2 pre' post' na,
      deepcopyConfig σc (pre ++ (flag, EntryVal.ref a) :: post) =
        (σ2, pre' ++ (flag, EntryVal.ref na) :: post')
      ∧ (a, na) ∈ m2
      ∧ σc.length ≤ σ2.length
      ∧ (∀ i, i < σc.length → σ2.get? i = σc.get? i)
      ∧ (∀ q ∈ m2, q.2 < σ2.length ∧ σ2.get? q.2 = σc.get? q.1)
      ∧ (∀ q ∈ m2, ∀ q' ∈ m2, q.2 = q'.2 → q.1 = q'.1)
      ∧ (∀ q ∈ m2, σc.length ≤ q.2)
      ∧ List.Forall₂ (copiedEntry m2) pre pre'
      ∧ List.Forall₂ (copiedEntry m2) post post' := by
  have halt : a < σc.length := hget_lt_len σc a d ha
  have h5 : ∀ e ∈ pre ++ (flag, EntryVal.ref a) :: post, ∀ b, e.2 = EntryVal.ref b →
      b < σc.length := by
    intro e he b hb
    rcases List.mem_append.mp he with hp | hq
    · exact hvpre e hp b hb
    · rcases List.mem_cons.mp hq with rfl | hq
      · simp only at hb
        injection hb with hba
        subst hba
        exact halt
      · exact hvpost e hq b hb
  rcases deepcopyGo_spec σc (pre ++ (flag, EntryVal.ref a) :: post) σc []
      (le_refl _) (fun _ _ => rfl) (by simp) (by simp) h5
    with ⟨σ2, m2, es', heq, c1, c2, c3, c4, _, c6, c7⟩
  rcases forall2_append_split _ pre _ es' c7 with ⟨pre', zs2, rfl, hfpre, hfrest⟩
  rcases hfrest with _ | ⟨hR, hfpost⟩
  rename_i out post'
  rcases out with ⟨k', v'⟩
  rcases hR with ⟨hk, hmatch⟩
  simp only at hk
  cases v' with
  | raw w => exact absurd hmatch (by simp)
  | ref na =>
      simp only [copiedEntry] at hmatch
      subst hk
      refine ⟨σ2, m2, pre', post', na, ?_, hmatch, c1, c2, c3, c4, ?_, hfpre, hfpost⟩
      · unfold deepcopyConfig
        rw [heq]
      · intro q hq
        rcases c6 q hq with hmem | hge
        · cases hmem
        · exact hge

theorem c2_fold (σ : Heap) (pre post : Config) (flag ty : String) (a : Nat) (L : List PyVal)
    (ha : σ.get? a = some ⟨ty, PyVal.list L⟩)
    (hty2 : get_argument_type_from_str ty = some CLIArgumentType.POSITIONAL_LIST)
    (hpre : ∀ e ∈ pre, inertEntryB σ e = true)
    (hpost : ∀ e ∈ post, inertEntryB σ e = true)
    (hflag : ∀ e ∈ pre, e.1 ≠ flag)
    (halias : ∀ e ∈ pre ++ post, e.2 ≠ EntryVal.ref a)
    (n : Nat) :
    ∀ L' : List PyVal, (∀ l ∈ L', flatInner l = true) →
    ∀ σc : Heap, σ.length ≤ σc.length →
    (∀ i, i < σ.length → σc.get? i = σ.get? i) →
    ∃ σf outs,
      foldExplodeDict (explodeFuel (n + 1)) (pre ++ (flag, EntryVal.ref a) :: post) flag σc L'
        = some (σf, outs)
      ∧ σc.length ≤ σf.length
      ∧ (∀ i, i < σc.length → σf.get? i = σc.get? i)
      ∧ outs.map (resolveConfig σf) = L'.map (fun l =>
          resolveConfig σ pre ++ (flag, Resolved.dict ty l) :: resolveConfig σ post) := by
  have halt : a < σ.length := hget_lt_len σ a _ ha
  have hrefs_pre : ∀ e ∈ pre, ∀ b, e.2 = EntryVal.ref b → b < σ.length := by
    intro e he b hb
    rcases e with ⟨k, v⟩
    simp only at hb
    subst hb
    exact inert_ref_lt σ k b (hpre _ he)
  have hrefs_post : ∀ e ∈ post, ∀ b, e.2 = EntryVal.ref b → b < σ.length := by
    intro e he b hb
    rcases e with ⟨k, v⟩
    simp only at hb
    subst hb
    exact inert_ref_lt σ k b (hpost _ he)
  intro L'
  induction L' with
  | nil =>
      intro _ σc _ _
      exact ⟨σc, [], rfl, le_refl _, fun _ _ => rfl, rfl⟩
  | cons l rest ih =>
      intro hshape σc hclen hcp
      have hl := hshape l (by simp)
      obtain ⟨xs, rfl⟩ : ∃ xs, l = PyVal.list xs := by
        cases l with
        | scalar s => exact absurd hl (by simp [flatInner])
        | list xs => exact ⟨xs, rfl⟩
      simp only [flatInner] at hl
      have haσc : σc.get? a = some ⟨ty, PyVal.list L⟩ := by
        rw [hcp a halt]; exact ha
      have hvpre : ∀ e ∈ pre, ∀ b, e.2 = EntryVal.ref b → b < σc.length :=
        fun e he b hb => lt_of_lt_of_le (hrefs_pre e he b hb) hclen
      have hvpost : ∀ e ∈ post, ∀ b, e.2 = EntryVal.ref b → b < σc.length :=
        fun e he b hb => lt_of_lt_of_le (hrefs_post e he b hb) hclen
      rcases deepcopyConfig_pivot σc pre post flag a ⟨ty, PyVal.list L⟩ haσc hvpre hvpost
        with ⟨σ2, m2, pre', post', na, hdc, hana, h2len, h2p, hm2, hm2inj, hm2fresh, hfpre, hfpost⟩
      have hna2 := hm2 (a, na) hana
      have hnaval : σ2.get? na = some ⟨ty, PyVal.list L⟩ := by
        rw [hna2.2]; exact haσc
      have hnalt : na < σ2.length := hna2.1
      have hnage : σc.length ≤ na := hm2fresh (a, na) hana
      have hkeys' : ∀ e ∈ pre', e.1 ≠ flag := by
        intro e' he'
        rcases keys_of_forall2 m2 pre pre' hfpre e' he' with ⟨e, he, hk⟩
        rw [← hk]
        exact hflag e he
      have hsdv : setDictValue σ2 (pre' ++ (flag, EntryVal.ref na) :: post') flag
          (PyVal.list xs) = some (σ2.set na ⟨ty, PyVal.list xs⟩) :=
        setDictValue_pivot σ2 pre' post' flag na ⟨ty, PyVal.list L⟩ (PyVal.list xs)
          hkeys' hnaval
      have hlen3 : (σ2.set na ⟨ty, PyVal.list xs⟩).length = σ2.length := by simp
      have hna3 : (σ2.set na ⟨ty, PyVal.list xs⟩).get? na = some ⟨ty, PyVal.list xs⟩ :=
        hget_set_lt σ2 na _ hnalt
      have h3p : ∀ i, i < σc.length → (σ2.set na ⟨ty, PyVal.list xs⟩).get? i = σc.get? i := by
        intro i hi
        rw [hget_set_ne σ2 na i _ (by omega), h2p i hi]
      have hm3 : ∀ q ∈ m2, q.1 ≠ a →
          (σ2.set na ⟨ty, PyVal.list xs⟩).get? q.2 = σc.get? q.1 := by
        intro q hq hqa
        have hne : na ≠ q.2 := by
          intro hEq
          exact hqa (hm2inj q hq (a, na) hana (by rw [hEq]))
        rw [hget_set_ne σ2 na q.2 _ hne]
        exact (hm2 q hq).2
      have hrespre : resolveConfig (σ2.set na ⟨ty, PyVal.list xs⟩) pre'
          = resolveConfig σ pre := by
        have h1 := resolveConfig_copied σc (σ2.set na ⟨ty, PyVal.list xs⟩) m2 a pre pre' hfpre
          (fun e he => halias e (List.mem_append.mpr (Or.inl he))) hm3
        rw [h1]
        exact resolveConfig_stable σ σc σ.length pre hcp hrefs_pre
      have hrespost : resolveConfig (σ2.set na ⟨ty, PyVal.list xs⟩) post'
          = resolveConfig σ post := by
        have h1 := resolveConfig_copied σc (σ2.set na ⟨ty, PyVal.list xs⟩) m2 a post post' hfpost
          (fun e he => halias e (List.mem_append.mpr (Or.inr he))) hm3
        rw [h1]
        exact resolveConfig_stable σ σc σ.length post hcp hrefs_post
      have hinpre' : ∀ e ∈ pre', inertEntryB (σ2.set na ⟨ty, PyVal.list xs⟩) e = true :=
        inert_of_resolve_eq σ _ pre pre' hrespre hpre
      have hinpost' : ∀ e ∈ post', inertEntryB (σ2.set na ⟨ty, PyVal.list xs⟩) e = true :=
        inert_of_resolve_eq σ _ post post' hrespost hpost
      have hchild : explodeFuel (n + 1) (σ2.set na ⟨ty, PyVal.list xs⟩)
          (pre' ++ (flag, EntryVal.ref na) :: post')
          = some (σ2.set na ⟨ty, PyVal.list xs⟩,
              [pre' ++ (flag, EntryVal.ref na) :: post']) := by
        have hl2 : xs.isEmpty = true ∨ xs.all PyVal.isList = false := by
          cases hIsE : xs.isEmpty with
          | true => exact Or.inl rfl
          | false =>
              cases hAll : xs.all PyVal.isList with
              | false => exact Or.inr rfl
              | true => rw [hIsE, hAll] at hl; exact absurd hl (by simp)
        rcases hl2 with hempty | hfalse
        · -- empty inner list: the pivot is explosive again with zero arguments
          have hxs : xs = [] := by
            cases xs with
            | nil => rfl
            | cons x xr => simp at hempty
          subst hxs
          have hfp : findPivot (σ2.set na ⟨ty, PyVal.list []⟩)
              (pre' ++ (flag, EntryVal.ref na) :: post')
              = some (some (.dict flag na [])) :=
            findPivot_at_pivot _ pre' post' flag na ⟨ty, PyVal.list []⟩
              CLIArgumentType.POSITIONAL_LIST [] hinpre' hna3 rfl hty2
              (by show is_argument_explosive CLIArgumentType.POSITIONAL_LIST
                    (PyVal.list []) = true
                  decide)
          exact explodeFuel_empty_pivot n _ _ flag na hfp
        · -- an inner list with a non-list element: the pivot is inert
          have hinert_piv : inertEntryB (σ2.set na ⟨ty, PyVal.list xs⟩)
              (flag, EntryVal.ref na) = true := by
            unfold inertEntryB resolveEntry
            simp only
            rw [hna3]
            simp only [inertResolved]
            rw [hty2]
            simp [is_argument_explosive, CLIArgumentType.FLAG_LIST, is_list_of_list, hfalse]
          have hall : ∀ e ∈ pre' ++ (flag, EntryVal.ref na) :: post',
              inertEntryB (σ2.set na ⟨ty, PyVal.list xs⟩) e = true := by
            intro e he
            rcases List.mem_append.mp he with h | h
            · exact hinpre' e h
            · rcases List.mem_cons.mp h with rfl | h
              · exact hinert_piv
              · exact hinpost' e h
          have hfp : findPivot (σ2.set na ⟨ty, PyVal.list xs⟩)
              (pre' ++ (flag, EntryVal.ref na) :: post') = some none := by
            have := findPivot_append_inert (σ2.set na ⟨ty, PyVal.list xs⟩) []
              (pre' ++ (flag, EntryVal.ref na) :: post') hall
            simpa [findPivot] using this
          exact explodeFuel_no_pivot n _ _ hfp
      have hlen3' : σ.length ≤ (σ2.set na ⟨ty, PyVal.list xs⟩).length := by omega
      have h3pσ : ∀ i, i < σ.length →
          (σ2.set na ⟨ty, PyVal.list xs⟩).get? i = σ.get? i := by
        intro i hi
        rw [h3p i (lt_of_lt_of_le hi hclen), hcp i hi]
      rcases ih (fun l' hl' => hshape l' (List.mem_cons_of_mem _ hl'))
          (σ2.set na ⟨ty, PyVal.list xs⟩) hlen3' h3pσ
        with ⟨σf, outs, hfold, hflen, hfp2, hfmap⟩
      have hchildrefs : ∀ e ∈ pre' ++ (flag, EntryVal.ref na) :: post', ∀ b,
          e.2 = EntryVal.ref b → b < (σ2.set na ⟨ty, PyVal.list xs⟩).length := by
        intro e he b hb
        rw [hlen3]
        rcases List.mem_append.mp he with h | h
        · rcases refs_of_forall2 m2 pre pre' hfpre e h b hb with ⟨b0, hb0⟩
          exact (hm2 (b0, b) hb0).1
        · rcases List.mem_cons.mp h with rfl | h
          · simp only at hb
            injection hb with hba
            subst hba
            exact hnalt
          · rcases refs_of_forall2 m2 post post' hfpost e h b hb with ⟨b0, hb0⟩
            exact (hm2 (b0, b) hb0).1
      refine ⟨σf, (pre' ++ (flag, EntryVal.ref na) :: post') :: outs, ?_, by omega, ?_, ?_⟩
      · simp only [foldExplodeDict, hdc, hsdv, hchild, hfold, Option.bind_eq_bind,
          Option.some_bind', Option.pure_def, List.singleton_append]
      · intro i hi
        rw [hfp2 i (by omega), h3p i hi]
      · simp only [List.map_cons]
        have hstab : resolveConfig σf (pre' ++ (flag, EntryVal.ref na) :: post')
            = resolveConfig (σ2.set na ⟨ty, PyVal.list xs⟩)
                (pre' ++ (flag, EntryVal.ref na) :: post') :=
          resolveConfig_stable _ σf _ _ hfp2 hchildrefs
        rw [hstab, hfmap]
        have hhead : resolveConfig (σ2.set na ⟨ty, PyVal.list xs⟩)
            (pre' ++ (flag, EntryVal.ref na) :: post')
            = resolveConfig σ pre ++ (flag, Resolved.dict ty (PyVal.list xs))
                :: resolveConfig σ post := by
          unfold resolveConfig
          rw [List.map_append, List.map_cons]
          unfold resolveConfig at hrespre hrespost
          rw [hrespre, hrespost]
          congr 1
          show ((flag, EntryVal.ref na).1,
            resolveEntry (σ2.set na ⟨ty, PyVal.list xs⟩) (EntryVal.ref na)) :: _ = _
          unfold resolveEntry
          simp only
          rw [hna3]
        rw [hhead]

theorem explodeFuel_dict_pivot (n : Nat) (σ : Heap) (cfg : Config) (flag : String) (a : Nat)
    (args : List PyVal) (σf : Heap) (outs : List Config)
    (hfp : findPivot σ cfg = some (some (.dict flag a args)))
    (hfold : foldExplodeDict (explodeFuel n) cfg flag σ args = some (σf, outs))
    (houts : outs.isEmpty = false) :
    explodeFuel (n + 1) σ cfg = some (σf, outs) := by
  simp only [explodeFuel, hfp, Option.bind_eq_bind, Option.some_bind', hfold, houts,
    Bool.false_eq_true, if_false, Option.pure_def]

/-- C2 as amended: for every *List-kind option (type string `flag_list` or
`positional_list`; both parse to the same enum member) whose wrapper dict
holds a nonempty list of k inner lists, none of which is itself a nonempty
list of lists, and in a record whose other options are not explosive (and
share no structure with the pivot dict), `explode` produces exactly k
variants, each identical to the input record except that the option's value
is one entire inner list, unchanged, in order; and a plain (non-nested) list
under a *List kind is not explosive at all. -/
theorem c2_list_of_lists_explosion
    (σ : Heap) (pre post : Config) (flag ty : String) (a : Nat) (L : List PyVal)
    (hty : ty = "flag_list" ∨ ty = "positional_list")
    (ha : σ.get? a = some ⟨ty, PyVal.list L⟩)
    (hL : L ≠ [])
    (hinner : ∀ l ∈ L, flatInner l = true)
    (hpre : ∀ e ∈ pre, inertEntryB σ e = true)
    (hpost : ∀ e ∈ post, inertEntryB σ e = true)
    (hflag : ∀ e ∈ pre, e.1 ≠ flag)
    (halias : ∀ e ∈ pre ++ post, e.2 ≠ EntryVal.ref a) :
    ((explode σ (pre ++ (flag, EntryVal.ref a) :: post)).map
        (fun r => r.2.map (resolveConfig r.1)) =
      some (L.map (fun l =>
        resolveConfig σ pre ++ (flag, Resolved.dict ty l) :: resolveConfig σ post)))
  ∧ (∀ v, is_list_of_list v = false →
      is_argument_explosive CLIArgumentType.FLAG_LIST v = false) := by
  constructor
  · have hty2 : get_argument_type_from_str ty = some CLIArgumentType.POSITIONAL_LIST := by
      rcases hty with rfl | rfl <;> rfl
    have hLoL : is_list_of_list (PyVal.list L) = true := by
      simp only [is_list_of_list, List.all_eq_true]
      intro l hlmem
      have hfi := hinner l hlmem
      cases l with
      | scalar s => exact absurd hfi (by simp [flatInner])
      | list xs => simp [PyVal.isList]
    have hexp : is_argument_explosive CLIArgumentType.POSITIONAL_LIST (PyVal.list L)
        = true := by
      simp [is_argument_explosive, hLoL]
    have hfp : findPivot σ (pre ++ (flag, EntryVal.ref a) :: post)
        = some (some (.dict flag a L)) :=
      findPivot_at_pivot σ pre post flag a ⟨ty, PyVal.list L⟩
        CLIArgumentType.POSITIONAL_LIST L hpre ha rfl hty2 hexp
    obtain ⟨n, hn⟩ : ∃ n, configWeight σ (pre ++ (flag, EntryVal.ref a) :: post) = n + 1 := by
      have h1 : 1 ≤ configWeight σ (pre ++ (flag, EntryVal.ref a) :: post) := by
        unfold configWeight
        rw [List.map_append, List.map_cons, List.sum_append, List.sum_cons]
        have h2 : 1 ≤ entryWeight σ (flag, EntryVal.ref a).2 := by
          show 1 ≤ entryWeight σ (EntryVal.ref a)
          simp only [entryWeight]
          rw [ha]
          simp [PyVal.depth]
        omega
      exact ⟨configWeight σ (pre ++ (flag, EntryVal.ref a) :: post) - 1, by omega⟩
    rcases c2_fold σ pre post flag ty a L ha hty2 hpre hpost hflag halias n L hinner σ
        (le_refl _) (fun _ _ => rfl)
      with ⟨σf, outs, hfold, _, _, hmap⟩
    have houts : outs.isEmpty = false := by
      cases houts0 : outs with
      | nil =>
          exfalso
          rw [houts0] at hmap
          have hlen := congrArg List.length hmap
          simp only [List.length_map, List.length_nil] at hlen
          exact hL (List.eq_nil_of_length_eq_zero hlen.symm)
      | cons c cs => rfl
    unfold explode
    rw [hn]
    rw [explodeFuel_dict_pivot (n + 1) σ _ flag a L σf outs hfp hfold houts]
    simp only [Option.map_some']
    show some (outs.map (resolveConfig σf)) = _
    rw [hmap]
  · intro v hv
    unfold is_argument_explosive
    rw [hv]
    simp [CLIArgumentType.FLAG_LIST]

/-- C2 counterexample: the claim says every *List-kind option whose value is
a list of k inner lists explodes into k variants each carrying one entire
inner list, never decomposed further.  On the value `[[[1], [2]]]` (k = 1,
whose single inner list `[[1], [2]]` is itself a list of lists) the source
produces *two* variants carrying `[1]` and `[2]`: the inner list is
explosive again in the recursive call and is decomposed further. -/
theorem c2_counterexample_nested_inner_list_decomposed :
    (explode [⟨"flag_list",
        .list [.list [.list [.scalar (.int 1)], .list [.scalar (.int 2)]]]⟩]
        [("key", .ref 0)]).map (fun r => r.2.map (resolveConfig r.1)) =
      some [[("key", .dict "flag_list" (.list [.scalar (.int 1)]))],
            [("key", .dict "flag_list" (.list [.scalar (.int 2)]))]] := by
  decide

/-- C2 witness: the amended theorem applied to a concrete record —
`{"alpha": 5, "key": {"type": "flag_list", "value": [[1, 2], [3]]},
"beta": {"type": "flag", "value": "v"}}` — with two inner lists. -/
theorem c2_list_of_lists_explosion_witness :
    (("flag_list" : String) = "flag_list" ∨ ("flag_list" : String) = "positional_list")
  ∧ ([⟨"flag_list", .list [.list [.scalar (.int 1), .scalar (.int 2)],
        .list [.scalar (.int 3)]]⟩, ⟨"flag", .scalar (.str "v")⟩] : Heap).get? 0 =
      some ⟨"flag_list", PyVal.list [.list [.scalar (.int 1), .scalar (.int 2)],
        .list [.scalar (.int 3)]]⟩
  ∧ ([PyVal.list [.scalar (.int 1), .scalar (.int 2)], PyVal.list [.scalar (.int 3)]] ≠ [])
  ∧ (∀ l ∈ [PyVal.list [.scalar (.int 1), .scalar (.int 2)], PyVal.list [.scalar (.int 3)]],
      flatInner l = true)
  ∧ (∀ e ∈ ([("alpha", EntryVal.raw (.scalar (.int 5)))] : Config),
      inertEntryB [⟨"flag_list", .list [.list [.scalar (.int 1), .scalar (.int 2)],
        .list [.scalar (.int 3)]]⟩, ⟨"flag", .scalar (.str "v")⟩] e = true)
  ∧ (∀ e ∈ ([("beta", EntryVal.ref 1)] : Config),
      inertEntryB [⟨"flag_list", .list [.list [.scalar (.int 1), .scalar (.int 2)],
        .list [.scalar (.int 3)]]⟩, ⟨"flag", .scalar (.str "v")⟩] e = true)
  ∧ (∀ e ∈ ([("alpha", EntryVal.raw (.scalar (.int 5)))] : Config), e.1 ≠ "key")
  ∧ (∀ e ∈ ([("alpha", EntryVal.raw (.scalar (.int 5)))] : Config)
        ++ ([("beta", EntryVal.ref 1)] : Config), e.2 ≠ EntryVal.ref 0)
  ∧ (((explode [⟨"flag_list", .list [.list [.scalar (.int 1), .scalar (.int 2)],
          .list [.scalar (.int 3)]]⟩, ⟨"flag", .scalar (.str "v")⟩]
        ([("alpha", EntryVal.raw (.scalar (.int 5)))]
          ++ ("key", EntryVal.ref 0) :: [("beta", EntryVal.ref 1)])).map
        (fun r => r.2.map (resolveConfig r.1)) =
      some ([PyVal.list [.scalar (.int 1), .scalar (.int 2)],
          PyVal.list [.scalar (.int 3)]].map (fun l =>
        resolveConfig [⟨"flag_list", .list [.list [.scalar (.int 1), .scalar (.int 2)],
            .list [.scalar (.int 3)]]⟩, ⟨"flag", .scalar (.str "v")⟩]
          [("alpha", EntryVal.raw (.scalar (.int 5)))]
          ++ ("key", Resolved.dict "flag_list" l) ::
            resolveConfig [⟨"flag_list", .list [.list [.scalar (.int 1), .scalar (.int 2)],
              .list [.scalar (.int 3)]]⟩, ⟨"flag", .scalar (.str "v")⟩]
              [("beta", EntryVal.ref 1)])))
    ∧ (∀ v, is_list_of_list v = false →
        is_argument_explosive CLIArgumentType.FLAG_LIST v = false)) :=
  ⟨by decide, by decide, by decide, by decide, by decide, by decide, by decide, by decide,
    c2_list_of_lists_explosion
      [⟨"flag_list", .list [.list [.scalar (.int 1), .scalar (.int 2)],
        .list [.scalar (.int 3)]]⟩, ⟨"flag", .scalar (.str "v")⟩]
      [("alpha", EntryVal.raw (.scalar (.int 5)))] [("beta", EntryVal.ref 1)]
      "key" "flag_list" 0
      [PyVal.list [.scalar (.int 1), .scalar (.int 2)], PyVal.list [.scalar (.int 3)]]
      (by decide) (by decide) (by decide) (by decide) (by decide) (by decide)
      (by decide) (by decide)⟩
